import Mathlib

/-!
Verification development for the content-addressed acquisition and
canonicalization engine of the paperoni bibliographic store
(`src/paperoni/db/database.py`).

The embedding is a shallow one: the SQLite store becomes an explicit record
of association-list tables, SQLAlchemy `session.merge` becomes an
insert-or-replace keyed by the table's primary key, `insert ...
on_conflict_do_nothing` becomes an insert-if-absent, the raw
`UPDATE OR IGNORE` statements of the merge engine become a row-by-row
update that skips any row whose rewrite would collide with another row's
primary key (SQLite's documented IGNORE conflict resolution), and
`DELETE FROM ... WHERE id IN set` becomes a filter.

Parts of the repository that `database.py` imports but that are not in the
source tree (`paperoni/tools.py`, `paperoni/sources/model.py`,
`paperoni/db/schema.py` / `database.sql`) are modelled from the spec; each
such definition carries a doc comment saying so.

Temporal claims (transaction boundaries, history-log ordering) are settled
over an event trace: `import_all` and `replay` additionally return the list
of session-open / commit / acquire / log-append events they perform, in
order.
-/

/-- Modelled from the spec: `paperoni/tools.py` is not under `src/`.
Spec section 4.1 and the design note in section 9: an identifier carries a
1-bit provenance tag, transient vs canonical, readable without a side
lookup.  We represent the tag as an explicit field. -/
inductive IdTag where
  | transient : IdTag
  | canonical : IdTag
deriving DecidableEq, Repr

/-- Modelled from the spec: a 128-bit identifier with its embedded
provenance tag, represented as an unbounded value plus an explicit tag
(spec section 9 recommends exactly this two-field form). -/
structure UID where
  val : Nat
  tag : IdTag
deriving DecidableEq, Repr

/-- Modelled from the spec: `get_uuid_tag` of `paperoni/tools.py`. -/
def get_uuid_tag (h : UID) : IdTag := h.tag

/-- Modelled from the spec: `is_canonical_uuid` of `paperoni/tools.py`. -/
def is_canonical_uuid (h : UID) : Bool := h.tag = IdTag.canonical

/-- Modelled from the spec: `tag_uuid` of `paperoni/tools.py`: force the
provenance tag of an identifier value. -/
def tag_uuid (v : Nat) (t : IdTag) : UID := ⟨v, t⟩

/-! ## Entity model

The record shapes are read off the `match` in `Database._acquire`
(`database.py` lines 73-218); `paperoni/sources/model.py` itself is not
under `src/`, so the `hashid` functions are modelled from the spec:
section 4.1 says an entity's identifier is a deterministic hash of its
defining fields with the tag bits forced to mark "transient", and that
canonical identifiers are never produced by hashing.  We carry the opaque
hash value as a `hid` field of each entity (the hash function itself is
opaque; determinism is what matters) and the `hashid` functions force the
transient tag, exactly as the spec prescribes. -/

structure Link where
  type : String
  link : String
deriving DecidableEq, Repr

structure Institution where
  hid : Nat
  name : String
  category : String
deriving DecidableEq, Repr

/-- Modelled from the spec (section 4.1): hashing always yields a
transient-tagged identifier. -/
def Institution.hashid (i : Institution) : UID := tag_uuid i.hid IdTag.transient

structure Role where
  institution : Institution
  role : String
  start_date : String
  end_date : String
deriving DecidableEq, Repr

structure Author where
  hid : Nat
  name : String
  links : List Link
  aliases : List String
  roles : List Role
deriving DecidableEq, Repr

/-- Modelled from the spec (section 4.1). -/
def Author.hashid (a : Author) : UID := tag_uuid a.hid IdTag.transient

structure Topic where
  hid : Nat
  name : String
deriving DecidableEq, Repr

/-- Modelled from the spec (section 4.1). -/
def Topic.hashid (t : Topic) : UID := tag_uuid t.hid IdTag.transient

structure Venue where
  hid : Nat
  type : String
  name : String
  links : List Link
deriving DecidableEq, Repr

/-- Modelled from the spec (section 4.1). -/
def Venue.hashid (v : Venue) : UID := tag_uuid v.hid IdTag.transient

structure Release where
  hid : Nat
  date : String
  date_precision : Nat
  volume : String
  publisher : String
  venue : Venue
deriving DecidableEq, Repr

/-- Modelled from the spec (section 4.1). -/
def Release.hashid (r : Release) : UID := tag_uuid r.hid IdTag.transient

/-- One element of `paper.authors`: the author together with the
per-pairing affiliations (`paper_author.affiliations` in the source). -/
structure PaperAuthorE where
  author : Author
  affiliations : List Institution
deriving DecidableEq, Repr

structure Paper where
  hid : Nat
  title : String
  abstract : String
  citation_count : Nat
  authors : List PaperAuthorE
  releases : List Release
  topics : List Topic
  links : List Link
  scrapers : List String
deriving DecidableEq, Repr

/-- Modelled from the spec (section 4.1). -/
def Paper.hashid (p : Paper) : UID := tag_uuid p.hid IdTag.transient

/-- The tagged union of entity variants the engine accepts
(the cases of the `match` in `Database._acquire`). -/
inductive Entity where
  | paper : Paper → Entity
  | author : Author → Entity
  | institution : Institution → Entity
  | release : Release → Entity
  | topic : Topic → Entity
  | venue : Venue → Entity
deriving DecidableEq, Repr

def Entity.hashid : Entity → UID
  | .paper p => p.hashid
  | .author a => a.hashid
  | .institution i => i.hashid
  | .release r => r.hashid
  | .topic t => t.hashid
  | .venue v => v.hashid

/-! ## Storage schema

Modelled from the spec: `paperoni/db/schema.py` and `database.sql` are not
under `src/`.  Spec section 6 lists the tables and their columns; the
primary keys are the identifier columns for entity tables and the full
identifier tuple (plus discriminating attribute columns such as link type,
alias or scraper name) for edge tables, matching the upsert keys used by
`session.merge` in `_acquire`. -/

structure PaperRow where
  paper_id : UID
  title : String
  abstract : String
  citation_count : Nat
deriving DecidableEq, Repr

structure AuthorRow where
  author_id : UID
  name : String
deriving DecidableEq, Repr

structure InstitutionRow where
  institution_id : UID
  name : String
  category : String
deriving DecidableEq, Repr

structure ReleaseRow where
  release_id : UID
  date : String
  date_precision : Nat
  volume : String
  publisher : String
  venue_id : UID
deriving DecidableEq, Repr

structure TopicRow where
  topic_id : UID
  topic : String
deriving DecidableEq, Repr

structure VenueRow where
  venue_id : UID
  type : String
  name : String
deriving DecidableEq, Repr

/-- Edge `paper_author`; primary key `(paper_id, author_id)`, the
`author_position` is an attribute column. -/
structure PaperAuthorRow where
  paper_id : UID
  author_id : UID
  author_position : Nat
deriving DecidableEq, Repr

structure PaperAuthorInstitutionRow where
  paper_id : UID
  author_id : UID
  institution_id : UID
deriving DecidableEq, Repr

structure PaperReleaseRow where
  paper_id : UID
  release_id : UID
deriving DecidableEq, Repr

structure PaperTopicRow where
  paper_id : UID
  topic_id : UID
deriving DecidableEq, Repr

structure PaperLinkRow where
  paper_id : UID
  type : String
  link : String
deriving DecidableEq, Repr

structure PaperScraperRow where
  paper_id : UID
  scraper : String
deriving DecidableEq, Repr

/-- Edge `paper_flag`: referenced by `merge_papers` through `sch.PaperFlag`;
its columns are not described by the spec beyond the `paper_id` foreign key,
so we model it as a flag name keyed together with the paper. -/
structure PaperFlagRow where
  paper_id : UID
  flag : String
deriving DecidableEq, Repr

structure AuthorLinkRow where
  author_id : UID
  type : String
  link : String
deriving DecidableEq, Repr

/-- Edge `author_alias`; the alias column is named `aliasStr` because
`alias` is a reserved word in Lean. -/
structure AuthorAliasRow where
  author_id : UID
  aliasStr : String
deriving DecidableEq, Repr

structure AuthorInstitutionRow where
  author_id : UID
  institution_id : UID
  role : String
  start_date : String
  end_date : String
deriving DecidableEq, Repr

structure VenueLinkRow where
  venue_id : UID
  type : String
  link : String
deriving DecidableEq, Repr

/-- The persistent store: one list per table, in row order.  The
`canonical_id` table maps a transient hash id to the canonical id that
superseded it, or `none`. -/
structure DBState where
  paper : List PaperRow
  author : List AuthorRow
  institution : List InstitutionRow
  release : List ReleaseRow
  topic : List TopicRow
  venue : List VenueRow
  paper_author : List PaperAuthorRow
  paper_author_institution : List PaperAuthorInstitutionRow
  paper_release : List PaperReleaseRow
  paper_topic : List PaperTopicRow
  paper_link : List PaperLinkRow
  paper_scraper : List PaperScraperRow
  paper_flag : List PaperFlagRow
  author_link : List AuthorLinkRow
  author_alias : List AuthorAliasRow
  author_institution : List AuthorInstitutionRow
  venue_link : List VenueLinkRow
  canonical_id : List (UID × Option UID)
deriving DecidableEq, Repr

def DBState.empty : DBState :=
  ⟨[], [], [], [], [], [], [], [], [], [], [], [], [], [], [], [], [], []⟩

/-- The in-memory snapshot `self.canonical` of the `canonical_id` table,
loaded by `Database.__init__` and read-only afterwards (acquire adds rows
to the table but never to the snapshot). -/
def CMap : Type := List (UID × Option UID)

/-- `Database.__init__` rebuilds the snapshot from the stored table. -/
def loadCanonical (db : DBState) : CMap := db.canonical_id

/-- The mutable state a `Database` object threads through acquisitions:
the store plus the process-local acquisition cache `self.cache`. -/
structure St where
  db : DBState
  cache : List (UID × UID)
deriving DecidableEq, Repr

/-! ## Association-list primitives -/

/-- First binding for a key, like a Python dict lookup / SQL PK lookup. -/
def lookup2 {β : Type} (l : List (UID × β)) (k : UID) : Option β :=
  (l.find? (fun p => p.1 = k)).map (fun p => p.2)

/-- Insert-or-replace keyed by `key`: the semantics of
`session.merge` (and of a Python dict assignment for the cache). -/
def upsertBy {α κ : Type} [DecidableEq κ] (key : α → κ) (r : α) : List α → List α
  | [] => [r]
  | a :: l => if key a = key r then r :: l else a :: upsertBy key r l

/-- Insert unless a row with the same key exists: the semantics of
`insert ... on_conflict_do_nothing`. -/
def insertIgnoreBy {α κ : Type} [DecidableEq κ] (key : α → κ) (r : α) (l : List α) : List α :=
  if l.any (fun a => key a = key r) then l else l ++ [r]

/-! ## Acquisition engine (`Database.acquire` / `Database._acquire`) -/

/-- The state after the upsert branch of the wrapper: the body has
produced `r`; the result is cached under `hid`, and for a transient id a
`(hid, null)` row is appended to the stored `canonical_id` table. -/
def wrapPost (hid : UID) (r : UID × St) : St :=
  let s2 : St := { r.2 with cache := upsertBy Prod.fst (hid, r.1) r.2.cache }
  if get_uuid_tag hid = IdTag.transient then
    { s2 with db := { s2.db with canonical_id := s2.db.canonical_id ++ [(hid, none)] } }
  else s2

/-- The wrapper logic of `Database.acquire` (database.py lines 56-71),
generic over the entity's hash id and the `_acquire` body:
if the id is in the canonical-map snapshot, return the recorded canonical
id (or the id itself when the record is null) without touching storage;
otherwise run the body unless the id is transient and already cached;
after the body, cache the result and, for a transient id, add a
`(hid, null)` row to the `canonical_id` table. -/
def acquireGen (dict : CMap) (hid : UID) (body : St → UID × St) (s : St) : UID × St :=
  match lookup2 dict hid with
  | some c => (c.getD hid, s)
  | none =>
    if get_uuid_tag hid = IdTag.canonical ∨ lookup2 s.cache hid = none then
      let r := body s
      (r.1, wrapPost hid r)
    else
      ((lookup2 s.cache hid).getD hid, s)

def acquireInstitution (dict : CMap) (i : Institution) (s : St) : UID × St :=
  acquireGen dict i.hashid
    (fun s =>
      (i.hashid,
        { s with db := { s.db with
            institution := upsertBy InstitutionRow.institution_id
              ⟨i.hashid, i.name, i.category⟩ s.db.institution } }))
    s

def acquireTopic (dict : CMap) (t : Topic) (s : St) : UID × St :=
  acquireGen dict t.hashid
    (fun s =>
      (t.hashid,
        { s with db := { s.db with
            topic := upsertBy TopicRow.topic_id ⟨t.hashid, t.name⟩ s.db.topic } }))
    s

/-- The `for link in venue.links` loop of the Venue case. -/
def venueLinksLoop (vid : UID) : List Link → St → St
  | [], s => s
  | lk :: rest, s =>
      venueLinksLoop vid rest
        { s with db := { s.db with
            venue_link := upsertBy (fun r : VenueLinkRow => (r.venue_id, r.type, r.link))
              ⟨vid, lk.type, lk.link⟩ s.db.venue_link } }

def acquireVenue (dict : CMap) (v : Venue) (s : St) : UID × St :=
  acquireGen dict v.hashid
    (fun s =>
      let s1 : St := { s with db := { s.db with
          venue := upsertBy VenueRow.venue_id ⟨v.hashid, v.type, v.name⟩ s.db.venue } }
      (v.hashid, venueLinksLoop v.hashid v.links s1))
    s

def acquireRelease (dict : CMap) (r : Release) (s : St) : UID × St :=
  acquireGen dict r.hashid
    (fun s =>
      let q := acquireVenue dict r.venue s
      (r.hashid,
        { q.2 with db := { q.2.db with
            release := upsertBy ReleaseRow.release_id
              ⟨r.hashid, r.date, r.date_precision, r.volume, r.publisher, q.1⟩
              q.2.db.release } }))
    s

/-- The `for link in author.links` loop. -/
def authorLinksLoop (aid : UID) : List Link → St → St
  | [], s => s
  | lk :: rest, s =>
      authorLinksLoop aid rest
        { s with db := { s.db with
            author_link := upsertBy (fun r : AuthorLinkRow => (r.author_id, r.type, r.link))
              ⟨aid, lk.type, lk.link⟩ s.db.author_link } }

/-- The `for alias in author.aliases` loop. -/
def authorAliasesLoop (aid : UID) : List String → St → St
  | [], s => s
  | al :: rest, s =>
      authorAliasesLoop aid rest
        { s with db := { s.db with
            author_alias := upsertBy (fun r : AuthorAliasRow => (r.author_id, r.aliasStr))
              ⟨aid, al⟩ s.db.author_alias } }

/-- One iteration of the `for role in author.roles` loop: acquire the
role's institution, then upsert the `author_institution` edge. -/
def roleStep (dict : CMap) (aid : UID) (ro : Role) (s : St) : St :=
  let q := acquireInstitution dict ro.institution s
  { q.2 with db := { q.2.db with
      author_institution :=
        upsertBy (fun r : AuthorInstitutionRow => (r.author_id, r.institution_id, r.role))
          ⟨aid, q.1, ro.role, ro.start_date, ro.end_date⟩ q.2.db.author_institution } }

/-- The `for role in author.roles` loop. -/
def authorRolesLoop (dict : CMap) (aid : UID) : List Role → St → St
  | [], s => s
  | ro :: rest, s => authorRolesLoop dict aid rest (roleStep dict aid ro s)

def acquireAuthor (dict : CMap) (a : Author) (s : St) : UID × St :=
  acquireGen dict a.hashid
    (fun s =>
      let s1 : St := { s with db := { s.db with
          author := upsertBy AuthorRow.author_id ⟨a.hashid, a.name⟩ s.db.author } }
      let s2 := authorLinksLoop a.hashid a.links s1
      let s3 := authorAliasesLoop a.hashid a.aliases s2
      (a.hashid, authorRolesLoop dict a.hashid a.roles s3))
    s

/-- One iteration of the `for aff in paper_author.affiliations` loop. -/
def affStep (dict : CMap) (pid aid : UID) (aff : Institution) (s : St) : St :=
  let q := acquireInstitution dict aff s
  { q.2 with db := { q.2.db with
      paper_author_institution :=
        upsertBy (fun r : PaperAuthorInstitutionRow =>
            (r.paper_id, r.author_id, r.institution_id))
          ⟨pid, aid, q.1⟩ q.2.db.paper_author_institution } }

/-- The `for aff in paper_author.affiliations` inner loop. -/
def paperAffiliationsLoop (dict : CMap) (pid aid : UID) : List Institution → St → St
  | [], s => s
  | aff :: rest, s => paperAffiliationsLoop dict pid aid rest (affStep dict pid aid aff s)

/-- One iteration of the `for i, paper_author in enumerate(paper.authors)`
loop: acquire the author, upsert the `paper_author` edge carrying the
position, and run the affiliations loop. -/
def paStep (dict : CMap) (pid : UID) (i : Nat) (pa : PaperAuthorE) (s : St) : St :=
  let q := acquireAuthor dict pa.author s
  let s1 : St := { q.2 with db := { q.2.db with
      paper_author := upsertBy (fun r : PaperAuthorRow => (r.paper_id, r.author_id))
        ⟨pid, q.1, i⟩ q.2.db.paper_author } }
  paperAffiliationsLoop dict pid q.1 pa.affiliations s1

/-- The `for i, paper_author in enumerate(paper.authors)` loop, carrying
the running position `i`. -/
def paperAuthorsLoop (dict : CMap) (pid : UID) (i : Nat) : List PaperAuthorE → St → St
  | [], s => s
  | pa :: rest, s => paperAuthorsLoop dict pid (i + 1) rest (paStep dict pid i pa s)

/-- One iteration of the `for release in paper.releases` loop:
insert-or-ignore into the `paper_release` many-to-many table. -/
def relStep (dict : CMap) (pid : UID) (rl : Release) (s : St) : St :=
  let q := acquireRelease dict rl s
  { q.2 with db := { q.2.db with
      paper_release := insertIgnoreBy (fun r : PaperReleaseRow => (r.paper_id, r.release_id))
        ⟨pid, q.1⟩ q.2.db.paper_release } }

/-- The `for release in paper.releases` loop. -/
def paperReleasesLoop (dict : CMap) (pid : UID) : List Release → St → St
  | [], s => s
  | rl :: rest, s => paperReleasesLoop dict pid rest (relStep dict pid rl s)

/-- One iteration of the `for topic in paper.topics` loop. -/
def topStep (dict : CMap) (pid : UID) (tp : Topic) (s : St) : St :=
  let q := acquireTopic dict tp s
  { q.2 with db := { q.2.db with
      paper_topic := insertIgnoreBy (fun r : PaperTopicRow => (r.paper_id, r.topic_id))
        ⟨pid, q.1⟩ q.2.db.paper_topic } }

/-- The `for topic in paper.topics` loop. -/
def paperTopicsLoop (dict : CMap) (pid : UID) : List Topic → St → St
  | [], s => s
  | tp :: rest, s => paperTopicsLoop dict pid rest (topStep dict pid tp s)

/-- The `for link in paper.links` loop. -/
def paperLinksLoop (pid : UID) : List Link → St → St
  | [], s => s
  | lk :: rest, s =>
      paperLinksLoop pid rest
        { s with db := { s.db with
            paper_link := upsertBy (fun r : PaperLinkRow => (r.paper_id, r.type, r.link))
              ⟨pid, lk.type, lk.link⟩ s.db.paper_link } }

/-- The `for scraper in paper.scrapers` loop. -/
def paperScrapersLoop (pid : UID) : List String → St → St
  | [], s => s
  | sc :: rest, s =>
      paperScrapersLoop pid rest
        { s with db := { s.db with
            paper_scraper := upsertBy (fun r : PaperScraperRow => (r.paper_id, r.scraper))
              ⟨pid, sc⟩ s.db.paper_scraper } }

def acquirePaper (dict : CMap) (p : Paper) (s : St) : UID × St :=
  acquireGen dict p.hashid
    (fun s =>
      let s1 : St := { s with db := { s.db with
          paper := upsertBy PaperRow.paper_id
            ⟨p.hashid, p.title, p.abstract, p.citation_count⟩ s.db.paper } }
      let s2 := paperAuthorsLoop dict p.hashid 0 p.authors s1
      let s3 := paperReleasesLoop dict p.hashid p.releases s2
      let s4 := paperTopicsLoop dict p.hashid p.topics s3
      let s5 := paperLinksLoop p.hashid p.links s4
      (p.hashid, paperScrapersLoop p.hashid p.scrapers s5))
    s

/-- `Database.acquire`, dispatching on the entity variant as
`Database._acquire` does. -/
def acquire (dict : CMap) : Entity → St → UID × St
  | .paper p => acquirePaper dict p
  | .author a => acquireAuthor dict a
  | .institution i => acquireInstitution dict i
  | .release r => acquireRelease dict r
  | .topic t => acquireTopic dict t
  | .venue v => acquireVenue dict v

/-! ## Event traces

`import_all` and `replay` are modelled with an event trace alongside the
state, so the temporal claims (transaction boundaries, history-log
ordering) can be stated.  `Ev.sopen` and `Ev.commit` are the entry and
exit of a `with self:` block (`Session` begin / `commit`); `Ev.acq h`
records that the entity whose hash id is `h` was fed through `acquire`;
`Ev.log h` records that its raw record was appended to the history file. -/
inductive Ev where
  | sopen : Ev
  | commit : Ev
  | acq : UID → Ev
  | log : UID → Ev
deriving DecidableEq, Repr

/-- One `self.acquire(x)` call inside a batch loop: the state advances
and an acquire event is recorded. -/
def acqStep (dict : CMap) (p : St × List Ev) (x : Entity) : St × List Ev :=
  ((acquire dict x p.1).2, p.2 ++ [Ev.acq x.hashid])

/-- `Database.import_all` (database.py lines 220-230): an empty batch
returns immediately; otherwise every entity of the batch is acquired
inside one session (one transaction), and after the session commits the
raw entities are appended to the history file. -/
def import_all (dict : CMap) (xs : List Entity) (s : St) : St × List Ev :=
  if xs.isEmpty then (s, [])
  else
    let r := xs.foldl (acqStep dict) (s, [Ev.sopen])
    (r.1, r.2 ++ [Ev.commit] ++ xs.map (fun x => Ev.log x.hashid))

/-! ## History log file tree (`Database._accumulate_history_files`) -/

/-- A history path: either a record file (its records already
deserialized into entities, as `replay` does line by line) or a
directory. -/
inductive HP where
  | file : String → List Entity → HP
  | dir : String → List HP → HP

def hpName : HP → String
  | .file n _ => n
  | .dir n _ => n

/-- Code-point comparison of strings, matching Python's `<` on `str`
(and the comparison `sorted` uses for sibling paths). -/
def strLtB (a b : String) : Bool :=
  go a.data b.data
where
  go : List Char → List Char → Bool
    | [], [] => false
    | [], _ :: _ => true
    | _ :: _, [] => false
    | c :: cs, d :: ds => if c.val < d.val then true else if d.val < c.val then false else go cs ds

/-- Insertion sort of sibling paths by name, matching `sorted(paths)`. -/
def insertSorted (x : HP) : List HP → List HP
  | [] => [x]
  | y :: l => if strLtB (hpName x) (hpName y) then x :: y :: l else y :: insertSorted x l

def sortByName (l : List HP) : List HP := l.foldr insertSorted []

/-- The filter `x.name[:len(before)] < before`, applied only when a bound
is given (Python's `if before:` also skips the empty string). -/
def beforeKeep (before : Option String) (x : HP) : Bool :=
  match before with
  | none => true
  | some b => if b = "" then true else strLtB ((hpName x).take b.length) b

/-- The filter `x.name[:len(after)] > after`. -/
def afterKeep (after : Option String) (x : HP) : Bool :=
  match after with
  | none => true
  | some a => if a = "" then true else strLtB a ((hpName x).take a.length)

/-- Sort the children of a directory and apply the two bound filters, in
the order the `[*paths]` case of `_accumulate_history_files` does. -/
def selectChildren (before after : Option String) (ch : List HP) : List HP :=
  ((sortByName ch).filter (beforeKeep before)).filter (afterKeep after)

mutual
/-- Structural size of a history tree, used as recursion fuel. -/
def hpSize : HP → Nat
  | .file _ _ => 1
  | .dir _ ch => hpSizeL ch + 1
def hpSizeL : List HP → Nat
  | [] => 0
  | c :: cs => hpSize c + hpSizeL cs
end

/-- `Database._accumulate_history_files` (database.py lines 232-256), with
a structural fuel so the definition computes in the kernel; the fuel
bounds the directory nesting depth and `accumulate_history_files` below
instantiates it with `hpSize`, which always exceeds the depth, so the
out-of-fuel case is unreachable.  A file is appended to the results; a
directory's children are sorted, filtered by the name-prefix bounds and
recursed into. -/
def accHistF (fu : Nat) (before after : Option String) (x : HP) (results : List HP) : List HP :=
  match x with
  | HP.file n rs => results ++ [HP.file n rs]
  | HP.dir _ ch =>
    match fu with
    | 0 => results
    | Nat.succ fu2 =>
        (selectChildren before after ch).foldl (fun res c => accHistF fu2 before after c res) results

def accumulate_history_files (before after : Option String) (x : HP) (results : List HP) :
    List HP :=
  accHistF (hpSize x) before after x results

/-- Replay one history file: a fresh session (`with self:`), one
`acquire` per record in file order, then the session commit. -/
def replayFile (dict : CMap) (f : HP) (p : St × List Ev) : St × List Ev :=
  match f with
  | HP.dir _ _ => p
  | HP.file _ recs =>
    let r := recs.foldl (acqStep dict) (p.1, p.2 ++ [Ev.sopen])
    (r.1, r.2 ++ [Ev.commit])

/-- `Database.replay` (database.py lines 258-268): accumulate the
matching history files, then replay each file inside its own session. -/
def replay (dict : CMap) (history : HP) (before after : Option String) (s : St) :
    St × List Ev :=
  let history_files := accumulate_history_files before after history []
  history_files.foldl (fun p f => replayFile dict f p) (s, [])

/-! ## Canonicalization / merge engine -/

/-- `Database._filter_ids` (database.py lines 270-278): scan the input
for a canonical identifier and take the first one found as the merge
target; otherwise mint a fresh canonical identifier (the random
`uuid4` value is passed in as `fresh`) and report the *last* element of
the scan as the model row to copy (Python's `for ... else` leaves the
loop variable bound to the last element).  Returns the target, the
non-target identifiers, and the copy source when one was minted. -/
def filter_ids (fresh : Nat) (ids : List UID) : UID × List UID × Option UID :=
  match ids.find? (fun x => is_canonical_uuid x) with
  | some c => (c, ids.filter (fun x => x ≠ c), none)
  | none =>
    let c := tag_uuid fresh IdTag.canonical
    (c, ids.filter (fun x => x ≠ c), ids.getLast?)

/-- The row-by-row semantics of SQLite's `UPDATE OR IGNORE ... SET fk =
target WHERE fk IN rest`: rows are visited in order; a row selected by
`hit` is rewritten by `rw` unless the rewritten row's primary key
collides with some other row currently in the table (already-processed
rows in `done`, still-unprocessed rows in the tail), in which case the
IGNORE resolution skips the row and it stays unchanged. -/
def updateOI {α κ : Type} [DecidableEq κ] (key : α → κ) (hit : α → Bool) (rw : α → α) :
    List α → List α → List α
  | [], done => done
  | r :: todo, done =>
    if hit r then
      let r2 := rw r
      if (done ++ todo).any (fun q => key q = key r2) then
        updateOI key hit rw todo (done ++ [r])
      else
        updateOI key hit rw todo (done ++ [r2])
    else
      updateOI key hit rw todo (done ++ [r])

/-- `Database.merge_papers` (database.py lines 280-316).  The
`create_canonical` callback is the interpolated
`INSERT OR IGNORE INTO paper ... SELECT ... WHERE paper_id = model`
statement; the per-table loop is the interpolated
`UPDATE OR IGNORE ... WHERE paper_id IN rest`; the final statement is
`DELETE FROM paper WHERE paper_id IN rest`.  (The SQL interpolates the
target id once as a text literal and once as a blob literal; the
embedding abstracts over that encoding difference and treats both as the
same identifier.) -/
def merge_papers (fresh : Nat) (paper_ids : List UID) (db : DBState) : DBState :=
  let fc := filter_ids fresh paper_ids
  let canonical := fc.1
  let rest := fc.2.1
  let db : DBState :=
    match fc.2.2 with
    | none => db
    | some src =>
      match db.paper.find? (fun r => r.paper_id = src) with
      | none => db
      | some r =>
        let row : PaperRow := ⟨canonical, r.title, r.abstract, r.citation_count⟩
        { db with paper := insertIgnoreBy PaperRow.paper_id row db.paper }
  let hit := fun (h : UID) => rest.contains h
  let t1 := updateOI (fun r : PaperAuthorRow => (r.paper_id, r.author_id))
              (fun r : PaperAuthorRow => hit r.paper_id) (fun r : PaperAuthorRow => { r with paper_id := canonical })
              db.paper_author []
  let db := { db with paper_author := t1 }
  let t2 := updateOI (fun r : PaperLinkRow => (r.paper_id, r.type, r.link))
              (fun r : PaperLinkRow => hit r.paper_id) (fun r : PaperLinkRow => { r with paper_id := canonical })
              db.paper_link []
  let db := { db with paper_link := t2 }
  let t3 := updateOI (fun r : PaperFlagRow => (r.paper_id, r.flag))
              (fun r : PaperFlagRow => hit r.paper_id) (fun r : PaperFlagRow => { r with paper_id := canonical })
              db.paper_flag []
  let db := { db with paper_flag := t3 }
  let t4 := updateOI (fun r : PaperAuthorInstitutionRow => (r.paper_id, r.author_id, r.institution_id))
              (fun r : PaperAuthorInstitutionRow => hit r.paper_id) (fun r : PaperAuthorInstitutionRow => { r with paper_id := canonical })
              db.paper_author_institution []
  let db := { db with paper_author_institution := t4 }
  let t5 := updateOI (fun r : PaperReleaseRow => (r.paper_id, r.release_id))
              (fun r : PaperReleaseRow => hit r.paper_id) (fun r : PaperReleaseRow => { r with paper_id := canonical })
              db.paper_release []
  let db := { db with paper_release := t5 }
  let t6 := updateOI (fun r : PaperTopicRow => (r.paper_id, r.topic_id))
              (fun r : PaperTopicRow => hit r.paper_id) (fun r : PaperTopicRow => { r with paper_id := canonical })
              db.paper_topic []
  let db := { db with paper_topic := t6 }
  let t7 := updateOI (fun r : PaperScraperRow => (r.paper_id, r.scraper))
              (fun r : PaperScraperRow => hit r.paper_id) (fun r : PaperScraperRow => { r with paper_id := canonical })
              db.paper_scraper []
  let db := { db with paper_scraper := t7 }
  { db with paper := db.paper.filter (fun r => ¬ hit r.paper_id) }

def merge_authors (fresh : Nat) (author_ids : List UID) (db : DBState) : DBState :=
  let fc := filter_ids fresh author_ids
  let canonical := fc.1
  let rest := fc.2.1
  let db : DBState :=
    match fc.2.2 with
    | none => db
    | some src =>
      match db.author.find? (fun r => r.author_id = src) with
      | none => db
      | some r =>
        let row : AuthorRow := ⟨canonical, r.name⟩
        { db with author := insertIgnoreBy AuthorRow.author_id row db.author }
  let hit := fun (h : UID) => rest.contains h
  let t1 := updateOI (fun r : PaperAuthorRow => (r.paper_id, r.author_id))
              (fun r : PaperAuthorRow => hit r.author_id) (fun r : PaperAuthorRow => { r with author_id := canonical })
              db.paper_author []
  let db := { db with paper_author := t1 }
  let t2 := updateOI (fun r : AuthorLinkRow => (r.author_id, r.type, r.link))
              (fun r : AuthorLinkRow => hit r.author_id) (fun r : AuthorLinkRow => { r with author_id := canonical })
              db.author_link []
  let db := { db with author_link := t2 }
  let t3 := updateOI (fun r : AuthorAliasRow => (r.author_id, r.aliasStr))
              (fun r : AuthorAliasRow => hit r.author_id) (fun r : AuthorAliasRow => { r with author_id := canonical })
              db.author_alias []
  let db := { db with author_alias := t3 }
  let t4 := updateOI (fun r : AuthorInstitutionRow => (r.author_id, r.institution_id, r.role))
              (fun r : AuthorInstitutionRow => hit r.author_id) (fun r : AuthorInstitutionRow => { r with author_id := canonical })
              db.author_institution []
  let db := { db with author_institution := t4 }
  { db with author := db.author.filter (fun r => ¬ hit r.author_id) }

/-! ## Derived notions used by the theorems -/

/-- The state after acquiring each entity of a list in order (the state
component of a batch loop). -/
def stAfter (dict : CMap) (xs : List Entity) (s : St) : St :=
  xs.foldl (fun t x => (acquire dict x t).2) s

/-- The event trace contributed by replaying one history file. -/
def fileTrace : HP → List Ev
  | HP.dir _ _ => []
  | HP.file _ recs => Ev.sopen :: recs.map (fun x => Ev.acq x.hashid) ++ [Ev.commit]

/-- Checks that no transaction of a trace contains more than one acquire
event: the property "each record is acquired in its own transaction". -/
def recordsPerTxnLE1 (tr : List Ev) : Bool :=
  go 0 tr
where
  go : Nat → List Ev → Bool
    | _, [] => true
    | _, Ev.sopen :: r => go 0 r
    | _, Ev.commit :: r => go 0 r
    | n, Ev.acq _ :: r => if n = 0 then go 1 r else false
    | n, Ev.log _ :: r => go n r

def isFile : HP → Bool
  | HP.file _ _ => true
  | HP.dir _ _ => false

/-- What `UPDATE OR IGNORE ... SET fk = target WHERE fk IN rest` does to
a table: non-selected rows survive unchanged; a selected row is either
rewritten, or (when the rewrite collides with the key of another row of
the final table) kept unchanged; and every row of the result is an
original row or the rewrite of a selected original row. -/
def edgeSpec {α κ : Type} (key : α → κ) (hit : α → Bool) (rw : α → α)
    (old new : List α) : Prop :=
  (∀ r ∈ old, hit r = false → r ∈ new) ∧
  (∀ r ∈ old, hit r = true →
     rw r ∈ new ∨ (r ∈ new ∧ ∃ q ∈ new, key q = key (rw r))) ∧
  (∀ r ∈ new, r ∈ old ∨ ∃ q ∈ old, hit q = true ∧ r = rw q)

/-- Keys currently present in the acquisition cache. -/
def cacheKeys (s : St) : List UID := s.cache.map Prod.fst

/-- Evolution contract of one acquisition step for claim C9: the
`canonical_id` table only grows, by rows `(h, null)` with `h` transient,
pairwise distinct, absent from the canonical-map snapshot and from the
cache at the start, cached by the end, and all drawn from `hs` (the hash
ids the step can touch); the cache only grows, and only by ids in `hs`. -/
def CSpec (dict : CMap) (hs : List UID) (s s2 : St) : Prop :=
  ∃ L, s2.db.canonical_id = s.db.canonical_id ++ L
    ∧ (∀ p ∈ L, p.1.tag = IdTag.transient ∧ p.2 = (none : Option UID))
    ∧ (L.map Prod.fst).Nodup
    ∧ (∀ h ∈ L.map Prod.fst,
         lookup2 dict h = none ∧ h ∉ cacheKeys s ∧ h ∈ cacheKeys s2 ∧ h ∈ hs)
    ∧ (∀ h ∈ cacheKeys s, h ∈ cacheKeys s2)
    ∧ (∀ h ∈ cacheKeys s2, h ∈ cacheKeys s ∨ h ∈ hs)

/-- Hash ids of the institutions of an author's roles. -/
def rolesHashes (a : Author) : List UID :=
  a.roles.map (fun ro => ro.institution.hashid)

/-- Hash separation for an author: its own hash id differs from those of
its sub-entities.  Entities produced by a content hash satisfy this
automatically (sub-identifiers of different entities hash differently);
it rules out artificial hash collisions between an entity and the
sub-entities acquired during its own body. -/
def SepAuthor (a : Author) : Prop := a.hashid ∉ rolesHashes a

/-- Hash separation for a release. -/
def SepRelease (r : Release) : Prop := r.hashid ≠ r.venue.hashid

/-- Hash ids of everything acquired during a paper's body. -/
def paperSubHashes (p : Paper) : List UID :=
  (p.authors.map (fun pa =>
      (pa.author.hashid :: rolesHashes pa.author)
        ++ pa.affiliations.map Institution.hashid)).flatten
    ++ (p.releases.map (fun r => [r.hashid, r.venue.hashid])).flatten
    ++ p.topics.map Topic.hashid

/-- Hash separation for a paper. -/
def SepPaper (p : Paper) : Prop :=
  p.hashid ∉ paperSubHashes p
    ∧ (∀ pa ∈ p.authors, SepAuthor pa.author)
    ∧ (∀ r ∈ p.releases, SepRelease r)

/-- Hash separation for an entity. -/
def SepE : Entity → Prop
  | .paper p => SepPaper p
  | .author a => SepAuthor a
  | .release r => SepRelease r
  | .institution _ => True
  | .topic _ => True
  | .venue _ => True

/-- Store/session consistency: every key of the stored `canonical_id`
table is either in the canonical-map snapshot (rows present when the
`Database` object loaded it) or in the acquisition cache (rows added by
this object's own acquisitions).  It holds when a `Database` object is
constructed (the snapshot is the table) and is preserved by acquisition. -/
def GoodCanon (dict : CMap) (s : St) : Prop :=
  ∀ h ∈ s.db.canonical_id.map Prod.fst, ¬ lookup2 dict h = none ∨ h ∈ cacheKeys s

/-! ## Concrete scenarios used by counterexamples and witnesses -/

/-- An author with no links, aliases or roles. -/
def mkAuthor (h : Nat) (n : String) : Author := ⟨h, n, [], [], []⟩

def sampleA : Author := mkAuthor 5 "A"

def sampleB : Author := mkAuthor 6 "B"

def emptySt : St := ⟨DBState.empty, []⟩

/-- C3 scenario, step 1: a fresh store acquires author `sampleA`. -/
def c3_s1 : St := (acquire [] (Entity.author sampleA) emptySt).2

/-- C3 scenario, step 2: it also acquires author `sampleB`. -/
def c3_s2 : St := (acquire [] (Entity.author sampleB) c3_s1).2

/-- C3 scenario, step 3: the two (transient) author identifiers are
merged; a fresh canonical identifier with value 9 is minted and both
author rows are deleted. -/
def c3_db : DBState := merge_authors 9 [sampleA.hashid, sampleB.hashid] c3_s2.db

/-- C3 scenario, step 4: a new `Database` object opens the same store:
the canonical-map snapshot is reloaded and the cache starts empty. -/
def c3_dict : CMap := loadCanonical c3_db

def c3_st : St := ⟨c3_db, []⟩

/-- C1 scenario: papers `a`, `b`, `c` where only `b` is canonical. -/
def c1a : UID := ⟨1, IdTag.transient⟩

def c1b : UID := ⟨2, IdTag.canonical⟩

def c1c : UID := ⟨3, IdTag.transient⟩

/-- C1 scenario: a shared author, so that rewriting the `(a, author)`
edge to `b` collides with the existing `(b, author)` edge. -/
def c1author : UID := ⟨7, IdTag.transient⟩

def c1db : DBState := { DBState.empty with
  paper := [⟨c1a, "t", "", 0⟩, ⟨c1b, "t", "", 0⟩, ⟨c1c, "t", "", 0⟩],
  paper_author := [⟨c1a, c1author, 0⟩, ⟨c1b, c1author, 5⟩] }

/-- C6 scenario: two non-canonical authors `x` (named X) and `y`
(named Y), both authors of the same paper. -/
def c6x : UID := ⟨1, IdTag.transient⟩

def c6y : UID := ⟨2, IdTag.transient⟩

def c6paper : UID := ⟨4, IdTag.transient⟩

def c6db : DBState := { DBState.empty with
  author := [⟨c6x, "X"⟩, ⟨c6y, "Y"⟩],
  paper_author := [⟨c6paper, c6x, 0⟩, ⟨c6paper, c6y, 1⟩] }

/-- C5 scenario: a merge set containing two distinct canonical
identifiers. -/
def c5a : UID := ⟨1, IdTag.canonical⟩

def c5b : UID := ⟨2, IdTag.canonical⟩

def c5db : DBState := { DBState.empty with
  author := [⟨c5a, "N1"⟩, ⟨c5b, "N2"⟩],
  author_alias := [⟨c5b, "al"⟩] }

/-! ## Association-list lemmas -/

theorem lookup2_upsert_self {β : Type} (l : List (UID × β)) (k : UID) (v : β) :
    lookup2 (upsertBy Prod.fst (k, v) l) k = some v := by
  induction l with
  | nil => simp [upsertBy, lookup2]
  | cons a l ih =>
    by_cases h : a.1 = k
    · simp [upsertBy, lookup2, h]
    · simp only [upsertBy, h]
      simpa [lookup2, List.find?, h] using ih

theorem lookup2_none_iff {β : Type} (l : List (UID × β)) (k : UID) :
    lookup2 l k = none ↔ k ∉ l.map Prod.fst := by
  simp only [lookup2, Option.map_eq_none', List.find?_eq_none, List.mem_map,
    decide_eq_true_eq]
  constructor
  · rintro h ⟨p, hp, he⟩
    exact h p hp he
  · intro h p hp he
    exact h ⟨p, hp, he⟩

/-! ## Batch loop traces -/

theorem foldl_acqStep (d : CMap) (xs : List Entity) (s : St) (tr : List Ev) :
    xs.foldl (acqStep d) (s, tr) =
      (stAfter d xs s, tr ++ xs.map (fun x => Ev.acq x.hashid)) := by
  induction xs generalizing s tr with
  | nil => simp [stAfter]
  | cons x xs ih =>
    show xs.foldl (acqStep d) (acqStep d (s, tr) x) = _
    rw [acqStep, ih]
    simp [stAfter]

/-- Claim C10: `import_all` on an empty batch is a complete no-op: the
state is unchanged and no event (no session, no row write, no history
append) is performed. -/
theorem import_all_empty_noop (d : CMap) (s : St) :
    import_all d [] s = (s, []) := rfl

/-- Claim C8: `import_all` on a non-empty batch acquires every entity of
the batch inside a single session (one `sopen`, one `commit`, with all
the acquire events strictly between them) and appends the history
records only after the commit: the trace is exactly
session-open, the acquires in batch order, the commit, then the log
appends.  In particular no log event ever precedes the commit. -/
theorem import_all_commits_before_log (d : CMap) (xs : List Entity) (s : St)
    (hne : xs ≠ []) :
    import_all d xs s =
      (stAfter d xs s,
        Ev.sopen :: (xs.map (fun x => Ev.acq x.hashid)
          ++ Ev.commit :: xs.map (fun x => Ev.log x.hashid))) := by
  unfold import_all
  rw [if_neg (by simpa using hne)]
  rw [foldl_acqStep]
  simp

theorem import_all_commits_before_log_witness :
    ([Entity.author sampleA] ≠ ([] : List Entity)) ∧
    import_all [] [Entity.author sampleA] emptySt =
      (stAfter [] [Entity.author sampleA] emptySt,
        Ev.sopen :: ([Entity.author sampleA].map (fun x => Ev.acq x.hashid)
          ++ Ev.commit :: [Entity.author sampleA].map (fun x => Ev.log x.hashid))) :=
  ⟨by decide, import_all_commits_before_log [] [Entity.author sampleA] emptySt (by decide)⟩

/-! ## Idempotence of acquisition (claim C2) -/

theorem acquireGen_dict_hit (d : CMap) (h : UID) (body : St → UID × St) (s : St)
    (c : Option UID) (hd : lookup2 d h = some c) :
    acquireGen d h body s = (c.getD h, s) := by
  simp [acquireGen, hd]

theorem acquireGen_cache_hit (d : CMap) (h : UID) (body : St → UID × St) (s : St)
    (v : UID) (hd : lookup2 d h = none) (ht : h.tag = IdTag.transient)
    (hc : lookup2 s.cache h = some v) :
    acquireGen d h body s = (v, s) := by
  have hguard : ¬ (get_uuid_tag h = IdTag.canonical ∨ lookup2 s.cache h = none) := by
    simp [get_uuid_tag, ht, hc]
  simp [acquireGen, hd, hc, get_uuid_tag, ht]

theorem acquireGen_run (d : CMap) (h : UID) (body : St → UID × St) (s : St)
    (hd : lookup2 d h = none)
    (hrun : get_uuid_tag h = IdTag.canonical ∨ lookup2 s.cache h = none) :
    acquireGen d h body s = ((body s).1, wrapPost h (body s)) := by
  simp [acquireGen, hd, hrun]

theorem wrapPost_cache (h : UID) (r : UID × St) :
    (wrapPost h r).cache = upsertBy Prod.fst (h, r.1) r.2.cache := by
  unfold wrapPost
  split <;> rfl

theorem acquireGen_idem (d : CMap) (h : UID) (ht : h.tag = IdTag.transient)
    (body : St → UID × St) (s : St) :
    acquireGen d h body ((acquireGen d h body s).2) = acquireGen d h body s := by
  cases hd : lookup2 d h with
  | some c =>
    rw [acquireGen_dict_hit d h body s c hd]
    exact acquireGen_dict_hit d h body s c hd
  | none =>
    cases hc : lookup2 s.cache h with
    | some v =>
      rw [acquireGen_cache_hit d h body s v hd ht hc]
      exact acquireGen_cache_hit d h body s v hd ht hc
    | none =>
      rw [acquireGen_run d h body s hd (Or.inr hc)]
      have hc2 : lookup2 (wrapPost h (body s)).cache h = some (body s).1 := by
        rw [wrapPost_cache]
        exact lookup2_upsert_self _ _ _
      rw [acquireGen_cache_hit d h body (wrapPost h (body s)) (body s).1 hd ht hc2]

/-- Claim C2: acquiring the same entity a second time, in a later session
of the same `Database` object (the canonical-map snapshot and the
acquisition cache persist across its sessions; a session commit changes
no state in the model), returns the same identifier and leaves the store
byte-identical: the whole result, state included, is the same, so no
duplicate entity or edge rows are created. -/
theorem acquire_idempotent_second_session (d : CMap) (e : Entity) (s : St) :
    acquire d e ((acquire d e s).2) = acquire d e s := by
  cases e with
  | paper p => exact acquireGen_idem d p.hashid rfl _ s
  | author a => exact acquireGen_idem d a.hashid rfl _ s
  | institution i => exact acquireGen_idem d i.hashid rfl _ s
  | release r => exact acquireGen_idem d r.hashid rfl _ s
  | topic t => exact acquireGen_idem d t.hashid rfl _ s
  | venue v => exact acquireGen_idem d v.hashid rfl _ s

/-! ## Claim C3: acquisition after a merge deleted a folded transient row -/

/-- Amended claim C3: when the canonical-map records an entry for the
computed identifier of the acquired content (as it does for every
transient identifier that has ever been acquired, including one whose
entity row a merge later deleted), `acquire` returns the recorded
canonical id — or the identifier itself when the record is null — and
leaves the state completely unchanged: the deleted entity row is *not*
recreated. -/
theorem acquire_superseded_map_hit_noop (d : CMap) (e : Entity) (s : St) (v : Option UID)
    (h : lookup2 d e.hashid = some v) :
    acquire d e s = (v.getD e.hashid, s) := by
  cases e <;>
    (simp only [acquire, acquirePaper, acquireAuthor, acquireInstitution,
        acquireRelease, acquireTopic, acquireVenue, Entity.hashid];
     exact acquireGen_dict_hit d _ _ s v h)

theorem acquire_superseded_map_hit_noop_witness :
    lookup2 c3_dict (Entity.author sampleA).hashid = some none
    ∧ acquire c3_dict (Entity.author sampleA) c3_st =
        ((none : Option UID).getD (Entity.author sampleA).hashid, c3_st) :=
  ⟨by decide,
   acquire_superseded_map_hit_noop c3_dict (Entity.author sampleA) c3_st none (by decide)⟩

/-- Counterexample to claim C3 as stated: after `sampleA` and `sampleB`
are acquired and their identifiers merged (deleting both author rows),
re-acquiring the identical `sampleA` content in a fresh session returns
its old transient identifier but leaves the store untouched: the
`author` table still has no row for it — the row is *not* recreated,
because the `canonical_id` entry written at first acquisition
short-circuits re-absorption. -/
theorem acquire_after_merge_no_recreate_cx :
    acquire c3_dict (Entity.author sampleA) c3_st = (sampleA.hashid, c3_st)
    ∧ c3_db.author.find? (fun r => r.author_id = sampleA.hashid) = none := by
  constructor
  · decide
  · decide

/-! ## Claim C4: replay transaction granularity -/

/-- The state left by replaying one file. -/
theorem replayFile_trace (d : CMap) (f : HP) (p : St × List Ev) :
    (replayFile d f p).2 = p.2 ++ fileTrace f := by
  cases f with
  | dir n ch => simp [replayFile, fileTrace]
  | file n recs =>
    simp [replayFile, fileTrace, foldl_acqStep]

/-- Counterexample to claim C4 as stated: replaying a single history
file holding two records produces the trace
session-open, acquire, acquire, commit — the two records share one
transaction, so it is not the case that each record is acquired in its
own transaction. -/
theorem replay_per_record_txn_cx :
    recordsPerTxnLE1
      ((replay [] (HP.dir "h" [HP.file "f" [Entity.author sampleA, Entity.author sampleB]])
          none none emptySt).2) = false := by
  decide

/-- Amended claim C4: during replay each history *file* is replayed in
its own transaction: the trace is, for each selected file in order, a
session-open, the acquire events of all that file's records in file
order, then one commit.  A crash mid-replay therefore loses at most one
file's worth of progress, not one record's. -/
theorem replay_per_file_transactions (d : CMap) (hist : HP) (b a : Option String) (s : St) :
    (replay d hist b a s).2 =
      ((accumulate_history_files b a hist []).map fileTrace).flatten := by
  unfold replay
  generalize accumulate_history_files b a hist [] = fs
  suffices hgen : ∀ (fs : List HP) (p : St × List Ev),
      (fs.foldl (fun q f => replayFile d f q) p).2 = p.2 ++ (fs.map fileTrace).flatten by
    simpa using hgen fs (s, [])
  intro fs
  induction fs with
  | nil => intro p; simp
  | cons f fs ih =>
    intro p
    show ((fs.foldl (fun q f => replayFile d f q) (replayFile d f p))).2 = _
    rw [ih, replayFile_trace]
    simp

/-! ## Claim C5: merge with more than one canonical identifier -/

/-- When the scan finds a canonical identifier, `_filter_ids` returns it
as the target together with the other members; no error is raised. -/
theorem filter_ids_found (fresh : Nat) (ids : List UID) (c : UID)
    (hf : ids.find? (fun x => is_canonical_uuid x) = some c) :
    filter_ids fresh ids = (c, ids.filter (fun x => x ≠ c), none) := by
  simp [filter_ids, hf]

/-- The author table after `merge_authors` when the input contains a
canonical identifier: no canonical row is inserted and the non-target
rows are deleted. -/
theorem merge_authors_author_table (fresh : Nat) (ids : List UID) (db : DBState) (c : UID)
    (hf : ids.find? (fun x => is_canonical_uuid x) = some c) :
    (merge_authors fresh ids db).author =
      db.author.filter
        (fun r => ¬ (ids.filter (fun x => x ≠ c)).contains r.author_id) := by
  simp [merge_authors, filter_ids_found fresh ids c hf]

/-- Amended claim C5: a merge set containing more than one distinct
canonical identifier is *not* rejected: no error is raised, the first
canonical identifier found in iteration order becomes the merge target,
and every other canonical identifier in the set is folded like a
transient member — its author row is deleted — while the target's row
survives untouched. -/
theorem merge_authors_first_canonical_wins (fresh : Nat) (ids : List UID) (db : DBState)
    (b1 b2 : UID) (h1 : ids.find? (fun x => is_canonical_uuid x) = some b1)
    (h2 : b2 ∈ ids) (h4 : b2 ≠ b1) :
    (∀ r ∈ (merge_authors fresh ids db).author, r.author_id ≠ b2)
    ∧ (∀ r ∈ db.author, r.author_id = b1 → r ∈ (merge_authors fresh ids db).author) := by
  rw [merge_authors_author_table fresh ids db b1 h1]
  constructor
  · intro r hr he
    rw [List.mem_filter] at hr
    have hr2 := hr.2
    simp only [he, decide_eq_true_eq, List.elem_iff, List.mem_filter,
      decide_eq_true_eq] at hr2
    exact (hr2 ⟨h2, h4⟩).elim
  · intro r hr he
    rw [List.mem_filter]
    refine ⟨hr, ?_⟩
    simp only [he, decide_eq_true_eq, List.elem_iff, List.mem_filter,
      decide_eq_true_eq]
    intro hmem
    exact hmem.2 rfl

theorem merge_authors_first_canonical_wins_witness :
    ([c5a, c5b].find? (fun x => is_canonical_uuid x) = some c5a)
    ∧ c5b ∈ [c5a, c5b] ∧ c5b ≠ c5a
    ∧ ((∀ r ∈ (merge_authors 9 [c5a, c5b] c5db).author, r.author_id ≠ c5b)
        ∧ (∀ r ∈ c5db.author, r.author_id = c5a →
             r ∈ (merge_authors 9 [c5a, c5b] c5db).author)) :=
  ⟨by decide, by decide, by decide,
   merge_authors_first_canonical_wins 9 [c5a, c5b] c5db c5a c5b
     (by decide) (by decide) (by decide)⟩

/-- Counterexample to claim C5 as stated: merging a set whose two
members are both canonical does not fail and does modify the store: the
merge runs to completion, keeps the first canonical identifier, deletes
the second one's row, and rewrites its alias edge onto the first. -/
theorem merge_two_canonical_no_error_cx :
    merge_authors 9 [c5a, c5b] c5db ≠ c5db
    ∧ (merge_authors 9 [c5a, c5b] c5db).author = [⟨c5a, "N1"⟩]
    ∧ (merge_authors 9 [c5a, c5b] c5db).author_alias = [⟨c5a, "al"⟩] := by
  refine ⟨by decide, by decide, by decide⟩

/-! ## Claim C7: history file range selection -/

theorem mem_insertSorted (x y : HP) (l : List HP) :
    y ∈ insertSorted x l ↔ y = x ∨ y ∈ l := by
  induction l with
  | nil => simp [insertSorted]
  | cons z l ih =>
    by_cases h : strLtB (hpName x) (hpName z)
    · simp [insertSorted, h]
    · simp only [insertSorted, h, if_false, Bool.false_eq_true, List.mem_cons, ih]
      tauto

theorem mem_sortByName (y : HP) (l : List HP) :
    y ∈ sortByName l ↔ y ∈ l := by
  induction l with
  | nil => simp [sortByName]
  | cons z l ih =>
    show y ∈ insertSorted z (sortByName l) ↔ _
    rw [mem_insertSorted]
    simp [ih]

theorem mem_selectChildren (b a : Option String) (ch : List HP) (y : HP)
    (hy : y ∈ selectChildren b a ch) : y ∈ ch := by
  unfold selectChildren at hy
  rw [List.mem_filter] at hy
  rw [List.mem_filter] at hy
  exact (mem_sortByName y ch).mp hy.1.1

/-- Folding the file case of `_accumulate_history_files` over a list of
plain files just appends them in order. -/
theorem accHistF_files_fold (fu : Nat) (b a : Option String) (l : List HP)
    (res : List HP) (h : ∀ c ∈ l, isFile c = true) :
    l.foldl (fun r c => accHistF fu b a c r) res = res ++ l := by
  induction l generalizing res with
  | nil => simp
  | cons c l ih =>
    have hc : isFile c = true := h c (List.mem_cons_self c l)
    cases c with
    | dir n ch => simp [isFile] at hc
    | file n recs =>
      show l.foldl _ (accHistF fu b a (HP.file n recs) res) = _
      have hstep : accHistF fu b a (HP.file n recs) res = res ++ [HP.file n recs] := by
        cases fu <;> rfl
      rw [hstep, ih (res ++ [HP.file n recs])
        (fun c hcl => h c (List.mem_cons_of_mem _ hcl))]
      simp

/-- Amended claim C7: over a directory of history files, replay file
selection returns exactly the files sorted by name and then filtered by
the two bounds — a file is kept iff its name truncated to the bound's
length is strictly below `before` and strictly above `after`.  In
particular a file whose name prefix *equals* `after` is excluded (the
code compares with strict `>`), so the range is open at `after`, not
half-open as claimed; a prefix equal to `before` is excluded as the
claim says; and files are processed in ascending name order. -/
theorem accumulate_flat_dir (b a : Option String) (n : String) (ch : List HP)
    (hch : ∀ c ∈ ch, isFile c = true) :
    accumulate_history_files b a (HP.dir n ch) [] = selectChildren b a ch := by
  show accHistF (hpSize (HP.dir n ch)) b a (HP.dir n ch) [] = _
  have hsz : hpSize (HP.dir n ch) = hpSizeL ch + 1 := rfl
  rw [hsz]
  show (selectChildren b a ch).foldl (fun res c => accHistF (hpSizeL ch) b a c res) [] = _
  rw [accHistF_files_fold (hpSizeL ch) b a (selectChildren b a ch) []
      (fun c hc => hch c (mem_selectChildren b a ch c hc))]
  simp

theorem accumulate_flat_dir_witness :
    (∀ c ∈ [HP.file "b" [], HP.file "ab" []], isFile c = true)
    ∧ accumulate_history_files none (some "a") (HP.dir "h" [HP.file "b" [], HP.file "ab" []]) []
        = selectChildren none (some "a") [HP.file "b" [], HP.file "ab" []] :=
  ⟨by decide,
   accumulate_flat_dir none (some "a") "h" [HP.file "b" [], HP.file "ab" []] (by decide)⟩

/-- Counterexample to claim C7 as stated: with `after = "a"`, a file
named `"ab"` — whose name prefix of the bound's length equals `"a"` — is
*excluded* by `_accumulate_history_files`, although the claimed
half-open interpretation of the range would include it (its prefix
equals `after`). -/
theorem accumulate_after_prefix_eq_excluded_cx :
    accumulate_history_files none (some "a") (HP.dir "h" [HP.file "ab" []]) [] = [] := rfl

/-! ## Behaviour of `UPDATE OR IGNORE` (shared by claims C1 and C6) -/

section UpdateOI

variable {α κ : Type} [DecidableEq κ] (key : α → κ) (hit : α → Bool) (rwf : α → α)

theorem updateOI_cons_nonhit (x : α) (todo done : List α) (hhit : hit x = false) :
    updateOI key hit rwf (x :: todo) done = updateOI key hit rwf todo (done ++ [x]) := by
  simp [updateOI, hhit]

theorem updateOI_cons_hit_coll (x : α) (todo done : List α) (hhit : hit x = true)
    (hco : (done ++ todo).any (fun q => key q = key (rwf x)) = true) :
    updateOI key hit rwf (x :: todo) done = updateOI key hit rwf todo (done ++ [x]) := by
  simp [updateOI, hhit, hco]

theorem updateOI_cons_hit_free (x : α) (todo done : List α) (hhit : hit x = true)
    (hco : (done ++ todo).any (fun q => key q = key (rwf x)) = false) :
    updateOI key hit rwf (x :: todo) done = updateOI key hit rwf todo (done ++ [rwf x]) := by
  simp [updateOI, hhit, hco]

theorem updateOI_prefix (todo : List α) :
    ∀ done, ∃ tail, updateOI key hit rwf todo done = done ++ tail := by
  induction todo with
  | nil => exact fun done => ⟨[], by simp [updateOI]⟩
  | cons x todo ih =>
    intro done
    cases hhit : hit x with
    | false =>
      obtain ⟨tail, ht⟩ := ih (done ++ [x])
      exact ⟨x :: tail, by rw [updateOI_cons_nonhit key hit rwf x todo done hhit, ht]; simp⟩
    | true =>
      cases hco : (done ++ todo).any (fun q => key q = key (rwf x)) with
      | true =>
        obtain ⟨tail, ht⟩ := ih (done ++ [x])
        exact ⟨x :: tail,
          by rw [updateOI_cons_hit_coll key hit rwf x todo done hhit hco, ht]; simp⟩
      | false =>
        obtain ⟨tail, ht⟩ := ih (done ++ [rwf x])
        exact ⟨rwf x :: tail,
          by rw [updateOI_cons_hit_free key hit rwf x todo done hhit hco, ht]; simp⟩

theorem updateOI_done_mem (todo done : List α) (r : α) (hr : r ∈ done) :
    r ∈ updateOI key hit rwf todo done := by
  obtain ⟨tail, ht⟩ := updateOI_prefix key hit rwf todo done
  rw [ht]
  exact List.mem_append_left _ hr

theorem updateOI_keep_nonhit (todo : List α) :
    ∀ (done : List α) (r : α), r ∈ todo → hit r = false →
      r ∈ updateOI key hit rwf todo done := by
  induction todo with
  | nil => intro done r hr _; simp at hr
  | cons x todo ih =>
    intro done r hr hhr
    rcases List.mem_cons.mp hr with rfl | hr2
    · rw [updateOI_cons_nonhit key hit rwf r todo done hhr]
      exact updateOI_done_mem key hit rwf todo (done ++ [r]) r (by simp)
    · cases hhit : hit x with
      | false =>
        rw [updateOI_cons_nonhit key hit rwf x todo done hhit]
        exact ih _ r hr2 hhr
      | true =>
        cases hco : (done ++ todo).any (fun q => key q = key (rwf x)) with
        | true =>
          rw [updateOI_cons_hit_coll key hit rwf x todo done hhit hco]
          exact ih _ r hr2 hhr
        | false =>
          rw [updateOI_cons_hit_free key hit rwf x todo done hhit hco]
          exact ih _ r hr2 hhr

theorem updateOI_origin (todo : List α) :
    ∀ (done : List α) (r : α), r ∈ updateOI key hit rwf todo done →
      r ∈ done ∨ r ∈ todo ∨ ∃ q, q ∈ todo ∧ hit q = true ∧ r = rwf q := by
  induction todo with
  | nil =>
    intro done r hr
    simp only [updateOI] at hr
    exact Or.inl hr
  | cons x todo ih =>
    intro done r hr
    cases hhit : hit x with
    | false =>
      rw [updateOI_cons_nonhit key hit rwf x todo done hhit] at hr
      rcases ih _ r hr with hd | ht | ⟨q, hq, hhq, he⟩
      · rcases List.mem_append.mp hd with h1 | h2
        · exact Or.inl h1
        · exact Or.inr (Or.inl (by rw [List.mem_singleton.mp h2]; exact List.mem_cons_self x todo))
      · exact Or.inr (Or.inl (List.mem_cons_of_mem x ht))
      · exact Or.inr (Or.inr ⟨q, List.mem_cons_of_mem x hq, hhq, he⟩)
    | true =>
      cases hco : (done ++ todo).any (fun q => key q = key (rwf x)) with
      | true =>
        rw [updateOI_cons_hit_coll key hit rwf x todo done hhit hco] at hr
        rcases ih _ r hr with hd | ht | ⟨q, hq, hhq, he⟩
        · rcases List.mem_append.mp hd with h1 | h2
          · exact Or.inl h1
          · exact Or.inr (Or.inl (by rw [List.mem_singleton.mp h2]; exact List.mem_cons_self x todo))
        · exact Or.inr (Or.inl (List.mem_cons_of_mem x ht))
        · exact Or.inr (Or.inr ⟨q, List.mem_cons_of_mem x hq, hhq, he⟩)
      | false =>
        rw [updateOI_cons_hit_free key hit rwf x todo done hhit hco] at hr
        rcases ih _ r hr with hd | ht | ⟨q, hq, hhq, he⟩
        · rcases List.mem_append.mp hd with h1 | h2
          · exact Or.inl h1
          · exact Or.inr (Or.inr ⟨x, List.mem_cons_self x todo, hhit, List.mem_singleton.mp h2⟩)
        · exact Or.inr (Or.inl (List.mem_cons_of_mem x ht))
        · exact Or.inr (Or.inr ⟨q, List.mem_cons_of_mem x hq, hhq, he⟩)

theorem updateOI_hit_blocked
    (KH : ∀ q r, hit r = true → key q = key (rwf r) → hit q = false)
    (todo : List α) :
    ∀ (done : List α) (r : α), r ∈ todo → hit r = true →
      rwf r ∈ updateOI key hit rwf todo done
      ∨ (r ∈ updateOI key hit rwf todo done
          ∧ ∃ q, q ∈ updateOI key hit rwf todo done ∧ key q = key (rwf r)) := by
  induction todo with
  | nil => intro done r hr _; simp at hr
  | cons x todo ih =>
    intro done r hr hhr
    rcases List.mem_cons.mp hr with rfl | hr2
    · cases hco : (done ++ todo).any (fun q => key q = key (rwf r)) with
      | false =>
        rw [updateOI_cons_hit_free key hit rwf r todo done hhr hco]
        exact Or.inl (updateOI_done_mem key hit rwf todo (done ++ [rwf r]) (rwf r) (by simp))
      | true =>
        rw [updateOI_cons_hit_coll key hit rwf r todo done hhr hco]
        refine Or.inr ⟨updateOI_done_mem key hit rwf todo (done ++ [r]) r (by simp), ?_⟩
        obtain ⟨q, hq, hkq⟩ := List.any_eq_true.mp hco
        have hkq2 : key q = key (rwf r) := of_decide_eq_true hkq
        rcases List.mem_append.mp hq with hqd | hqt
        · exact ⟨q, updateOI_done_mem key hit rwf todo (done ++ [r]) q
            (List.mem_append_left _ hqd), hkq2⟩
        · have hqf : hit q = false := KH q r hhr hkq2
          exact ⟨q, updateOI_keep_nonhit key hit rwf todo (done ++ [r]) q hqt hqf, hkq2⟩
    · cases hhit : hit x with
      | false =>
        rw [updateOI_cons_nonhit key hit rwf x todo done hhit]
        exact ih _ r hr2 hhr
      | true =>
        cases hco : (done ++ todo).any (fun q => key q = key (rwf x)) with
        | true =>
          rw [updateOI_cons_hit_coll key hit rwf x todo done hhit hco]
          exact ih _ r hr2 hhr
        | false =>
          rw [updateOI_cons_hit_free key hit rwf x todo done hhit hco]
          exact ih _ r hr2 hhr

/-- All of `UPDATE OR IGNORE`'s behaviour needed by the merge claims. -/
theorem updateOI_edgeSpec
    (KH : ∀ q r, hit r = true → key q = key (rwf r) → hit q = false)
    (l : List α) :
    edgeSpec key hit rwf l (updateOI key hit rwf l []) := by
  refine ⟨?_, ?_, ?_⟩
  · intro r hr hhr
    exact updateOI_keep_nonhit key hit rwf l [] r hr hhr
  · intro r hr hhr
    rcases updateOI_hit_blocked key hit rwf KH l [] r hr hhr with h | ⟨h1, q, hq, hk⟩
    · exact Or.inl h
    · exact Or.inr ⟨h1, q, hq, hk⟩
  · intro r hr
    rcases updateOI_origin key hit rwf l [] r hr with h | h | ⟨q, hq, hhq, he⟩
    · simp at h
    · exact Or.inl h
    · exact Or.inr ⟨q, hq, hhq, he⟩

end UpdateOI

/-! ## Claim C1: merge of paper identifiers -/

theorem contains_rest_self_false (ids : List UID) (b : UID) :
    ((ids.filter (fun x => x ≠ b)).contains b) = false := by
  simp

/-- Amended claim C1: after `merge("paper", ids)` with `b` the canonical
identifier of the set, the paper rows of all non-target identifiers are
gone, and in every paper relation table each edge that referenced a
non-target identifier has either been rewritten to reference `b` or —
when the rewrite collided with the key of an edge already referencing
`b` in the final table — been left *unchanged*, still referencing its
old identifier (the `UPDATE OR IGNORE` skips it; it is not dropped, so
stale edges referencing the folded identifiers can remain, dangling). -/
theorem merge_papers_edges (fresh : Nat) (paper_ids : List UID) (db : DBState) (b : UID)
    (h1 : paper_ids.find? (fun x => is_canonical_uuid x) = some b)
    (hu : ∀ h ∈ paper_ids, is_canonical_uuid h = true → h = b) :
    (∀ r ∈ (merge_papers fresh paper_ids db).paper,
        ((paper_ids.filter (fun x => x ≠ b)).contains r.paper_id) = false)
    ∧ edgeSpec (fun r : PaperAuthorRow => (r.paper_id, r.author_id))
        (fun r => (paper_ids.filter (fun x => x ≠ b)).contains r.paper_id)
        (fun r => { r with paper_id := b })
        db.paper_author (merge_papers fresh paper_ids db).paper_author
    ∧ edgeSpec (fun r : PaperLinkRow => (r.paper_id, r.type, r.link))
        (fun r => (paper_ids.filter (fun x => x ≠ b)).contains r.paper_id)
        (fun r => { r with paper_id := b })
        db.paper_link (merge_papers fresh paper_ids db).paper_link
    ∧ edgeSpec (fun r : PaperFlagRow => (r.paper_id, r.flag))
        (fun r => (paper_ids.filter (fun x => x ≠ b)).contains r.paper_id)
        (fun r => { r with paper_id := b })
        db.paper_flag (merge_papers fresh paper_ids db).paper_flag
    ∧ edgeSpec (fun r : PaperAuthorInstitutionRow => (r.paper_id, r.author_id, r.institution_id))
        (fun r => (paper_ids.filter (fun x => x ≠ b)).contains r.paper_id)
        (fun r => { r with paper_id := b })
        db.paper_author_institution (merge_papers fresh paper_ids db).paper_author_institution
    ∧ edgeSpec (fun r : PaperReleaseRow => (r.paper_id, r.release_id))
        (fun r => (paper_ids.filter (fun x => x ≠ b)).contains r.paper_id)
        (fun r => { r with paper_id := b })
        db.paper_release (merge_papers fresh paper_ids db).paper_release
    ∧ edgeSpec (fun r : PaperTopicRow => (r.paper_id, r.topic_id))
        (fun r => (paper_ids.filter (fun x => x ≠ b)).contains r.paper_id)
        (fun r => { r with paper_id := b })
        db.paper_topic (merge_papers fresh paper_ids db).paper_topic
    ∧ edgeSpec (fun r : PaperScraperRow => (r.paper_id, r.scraper))
        (fun r => (paper_ids.filter (fun x => x ≠ b)).contains r.paper_id)
        (fun r => { r with paper_id := b })
        db.paper_scraper (merge_papers fresh paper_ids db).paper_scraper := by
  have hred := filter_ids_found fresh paper_ids b h1
  refine ⟨?_, ?_, ?_, ?_, ?_, ?_, ?_, ?_⟩
  · intro r hr
    simp only [merge_papers, hred] at hr
    rw [List.mem_filter] at hr
    have h2 := hr.2
    simp only [decide_eq_true_eq] at h2
    exact Bool.eq_false_iff.mpr h2
  all_goals {
    simp only [merge_papers, hred]
    refine updateOI_edgeSpec _ _ _ ?_ _
    intro q r hhr hk
    simp only [Prod.mk.injEq] at hk
    rw [hk.1]
    exact contains_rest_self_false paper_ids b
  }

theorem merge_papers_edges_witness :
    ([c1a, c1b, c1c].find? (fun x => is_canonical_uuid x) = some c1b)
    ∧ (∀ h ∈ [c1a, c1b, c1c], is_canonical_uuid h = true → h = c1b)
    ∧ ((∀ r ∈ (merge_papers 99 [c1a, c1b, c1c] c1db).paper,
        (([c1a, c1b, c1c].filter (fun x => x ≠ c1b)).contains r.paper_id) = false)
    ∧ edgeSpec (fun r : PaperAuthorRow => (r.paper_id, r.author_id))
        (fun r => ([c1a, c1b, c1c].filter (fun x => x ≠ c1b)).contains r.paper_id)
        (fun r => { r with paper_id := c1b })
        c1db.paper_author (merge_papers 99 [c1a, c1b, c1c] c1db).paper_author
    ∧ edgeSpec (fun r : PaperLinkRow => (r.paper_id, r.type, r.link))
        (fun r => ([c1a, c1b, c1c].filter (fun x => x ≠ c1b)).contains r.paper_id)
        (fun r => { r with paper_id := c1b })
        c1db.paper_link (merge_papers 99 [c1a, c1b, c1c] c1db).paper_link
    ∧ edgeSpec (fun r : PaperFlagRow => (r.paper_id, r.flag))
        (fun r => ([c1a, c1b, c1c].filter (fun x => x ≠ c1b)).contains r.paper_id)
        (fun r => { r with paper_id := c1b })
        c1db.paper_flag (merge_papers 99 [c1a, c1b, c1c] c1db).paper_flag
    ∧ edgeSpec (fun r : PaperAuthorInstitutionRow => (r.paper_id, r.author_id, r.institution_id))
        (fun r => ([c1a, c1b, c1c].filter (fun x => x ≠ c1b)).contains r.paper_id)
        (fun r => { r with paper_id := c1b })
        c1db.paper_author_institution
        (merge_papers 99 [c1a, c1b, c1c] c1db).paper_author_institution
    ∧ edgeSpec (fun r : PaperReleaseRow => (r.paper_id, r.release_id))
        (fun r => ([c1a, c1b, c1c].filter (fun x => x ≠ c1b)).contains r.paper_id)
        (fun r => { r with paper_id := c1b })
        c1db.paper_release (merge_papers 99 [c1a, c1b, c1c] c1db).paper_release
    ∧ edgeSpec (fun r : PaperTopicRow => (r.paper_id, r.topic_id))
        (fun r => ([c1a, c1b, c1c].filter (fun x => x ≠ c1b)).contains r.paper_id)
        (fun r => { r with paper_id := c1b })
        c1db.paper_topic (merge_papers 99 [c1a, c1b, c1c] c1db).paper_topic
    ∧ edgeSpec (fun r : PaperScraperRow => (r.paper_id, r.scraper))
        (fun r => ([c1a, c1b, c1c].filter (fun x => x ≠ c1b)).contains r.paper_id)
        (fun r => { r with paper_id := c1b })
        c1db.paper_scraper (merge_papers 99 [c1a, c1b, c1c] c1db).paper_scraper) :=
  ⟨by decide, by decide,
   merge_papers_edges 99 [c1a, c1b, c1c] c1db c1b (by decide) (by decide)⟩

/-- Counterexample to claim C1 as stated: merging `{a, b, c}` with `b`
canonical over a store where papers `a` and `b` share an author: the
paper rows of `a` and `c` are indeed deleted, but the `paper_author`
edge of `a`, whose rewrite to `b` collides with the existing `(b,
author)` edge, is *not* dropped — it survives unchanged, so after the
merge an edge still references `a`. -/
theorem merge_papers_stale_edge_cx :
    (merge_papers 99 [c1a, c1b, c1c] c1db).paper.map PaperRow.paper_id = [c1b]
    ∧ (merge_papers 99 [c1a, c1b, c1c] c1db).paper_author
        = [⟨c1a, c1author, 0⟩, ⟨c1b, c1author, 5⟩]
    ∧ ((merge_papers 99 [c1a, c1b, c1c] c1db).paper_author.any
        (fun r => r.paper_id = c1a)) = true := by
  refine ⟨by decide, by decide, by decide⟩

/-! ## Claim C6: merging two non-canonical author identifiers -/

/-- Amended claim C6: merging two author identifiers `x`, `y`, neither
canonical, mints a fresh canonical identifier `z` and inserts an author
row for `z` carrying the name of `y` — the *last* member of the set (the
copy source is the leftover loop variable of the `for`/`else` scan), not
the first member's as claimed; the author rows of `x` and `y` are
deleted; and each `paper_author`/`author_link`/`author_alias`/
`author_institution` edge that referenced `x` or `y` now references `z`
unless its rewrite collided with an edge already keyed under `z` in the
final table, in which case it is left unchanged. -/
theorem merge_authors_mint_last (fresh : Nat) (x y : UID) (db : DBState) (yr : AuthorRow)
    (hx : is_canonical_uuid x = false) (hy : is_canonical_uuid y = false)
    (hyr : db.author.find? (fun r => r.author_id = y) = some yr)
    (hz : (db.author.any (fun r => r.author_id = tag_uuid fresh IdTag.canonical)) = false) :
    (⟨tag_uuid fresh IdTag.canonical, yr.name⟩ : AuthorRow)
        ∈ (merge_authors fresh [x, y] db).author
    ∧ (∀ r ∈ (merge_authors fresh [x, y] db).author, r.author_id ≠ x ∧ r.author_id ≠ y)
    ∧ edgeSpec (fun r : PaperAuthorRow => (r.paper_id, r.author_id))
        (fun r => ([x, y].contains r.author_id))
        (fun r => { r with author_id := tag_uuid fresh IdTag.canonical })
        db.paper_author (merge_authors fresh [x, y] db).paper_author
    ∧ edgeSpec (fun r : AuthorLinkRow => (r.author_id, r.type, r.link))
        (fun r => ([x, y].contains r.author_id))
        (fun r => { r with author_id := tag_uuid fresh IdTag.canonical })
        db.author_link (merge_authors fresh [x, y] db).author_link
    ∧ edgeSpec (fun r : AuthorAliasRow => (r.author_id, r.aliasStr))
        (fun r => ([x, y].contains r.author_id))
        (fun r => { r with author_id := tag_uuid fresh IdTag.canonical })
        db.author_alias (merge_authors fresh [x, y] db).author_alias
    ∧ edgeSpec (fun r : AuthorInstitutionRow => (r.author_id, r.institution_id, r.role))
        (fun r => ([x, y].contains r.author_id))
        (fun r => { r with author_id := tag_uuid fresh IdTag.canonical })
        db.author_institution (merge_authors fresh [x, y] db).author_institution := by
  have hxz : x ≠ tag_uuid fresh IdTag.canonical := by
    intro he
    rw [he] at hx
    simp [is_canonical_uuid, tag_uuid] at hx
  have hyz : y ≠ tag_uuid fresh IdTag.canonical := by
    intro he
    rw [he] at hy
    simp [is_canonical_uuid, tag_uuid] at hy
  have hfind : [x, y].find? (fun v => is_canonical_uuid v) = none := by
    simp [List.find?, hx, hy]
  have hfid : filter_ids fresh [x, y] = (tag_uuid fresh IdTag.canonical, [x, y], some y) := by
    simp [filter_ids, hfind, hxz, hyz]
  have hcontz : ([x, y].contains (tag_uuid fresh IdTag.canonical)) = false := by
    simp [Ne.symm hxz, Ne.symm hyz]
  refine ⟨?_, ?_, ?_, ?_, ?_, ?_⟩
  · simp only [merge_authors, hfid, hyr, insertIgnoreBy]
    rw [List.mem_filter]
    constructor
    · simp [hz]
    · simp only [decide_eq_true_eq, List.elem_iff, List.mem_cons, List.mem_singleton]
      rintro (he | he | he) <;>
        first
        | exact hxz he.symm
        | exact hyz he.symm
        | simp at he
  · intro r hr
    simp only [merge_authors, hfid, hyr, insertIgnoreBy] at hr
    rw [List.mem_filter] at hr
    have h2 := hr.2
    simp only [decide_eq_true_eq, List.elem_iff, List.mem_cons, List.mem_singleton] at h2
    constructor
    · intro he
      exact h2 (by simp [he])
    · intro he
      exact h2 (by simp [he])
  all_goals {
    simp only [merge_authors, hfid, hyr, insertIgnoreBy]
    refine updateOI_edgeSpec _ _ _ ?_ _
    intro q r hhr hk
    simp only [Prod.mk.injEq] at hk
    first
    | (rw [hk.2]; exact hcontz)
    | (rw [hk.1]; exact hcontz)
  }

theorem merge_authors_mint_last_witness :
    (is_canonical_uuid c6x = false) ∧ (is_canonical_uuid c6y = false)
    ∧ c6db.author.find? (fun r => r.author_id = c6y) = some ⟨c6y, "Y"⟩
    ∧ (c6db.author.any (fun r => r.author_id = tag_uuid 9 IdTag.canonical)) = false
    ∧ ((⟨tag_uuid 9 IdTag.canonical, (⟨c6y, "Y"⟩ : AuthorRow).name⟩ : AuthorRow)
          ∈ (merge_authors 9 [c6x, c6y] c6db).author
      ∧ (∀ r ∈ (merge_authors 9 [c6x, c6y] c6db).author, r.author_id ≠ c6x ∧ r.author_id ≠ c6y)
      ∧ edgeSpec (fun r : PaperAuthorRow => (r.paper_id, r.author_id))
          (fun r => ([c6x, c6y].contains r.author_id))
          (fun r => { r with author_id := tag_uuid 9 IdTag.canonical })
          c6db.paper_author (merge_authors 9 [c6x, c6y] c6db).paper_author
      ∧ edgeSpec (fun r : AuthorLinkRow => (r.author_id, r.type, r.link))
          (fun r => ([c6x, c6y].contains r.author_id))
          (fun r => { r with author_id := tag_uuid 9 IdTag.canonical })
          c6db.author_link (merge_authors 9 [c6x, c6y] c6db).author_link
      ∧ edgeSpec (fun r : AuthorAliasRow => (r.author_id, r.aliasStr))
          (fun r => ([c6x, c6y].contains r.author_id))
          (fun r => { r with author_id := tag_uuid 9 IdTag.canonical })
          c6db.author_alias (merge_authors 9 [c6x, c6y] c6db).author_alias
      ∧ edgeSpec (fun r : AuthorInstitutionRow => (r.author_id, r.institution_id, r.role))
          (fun r => ([c6x, c6y].contains r.author_id))
          (fun r => { r with author_id := tag_uuid 9 IdTag.canonical })
          c6db.author_institution (merge_authors 9 [c6x, c6y] c6db).author_institution) :=
  ⟨by decide, by decide, by decide, by decide,
   merge_authors_mint_last 9 c6x c6y c6db ⟨c6y, "Y"⟩
     (by decide) (by decide) (by decide) (by decide)⟩

/-- Counterexample to claim C6 as stated: merging the non-canonical
author identifiers `x` (name X) and `y` (name Y), both authors of one
paper: the minted canonical row carries `y`'s name "Y", not `x`'s name
"X" as claimed (the copy source is the last member scanned); and the
`paper_author` edge of `y`, whose rewrite collides with the
already-rewritten edge of `x`, still references `y` after the merge,
contradicting "all edges previously referencing x or y reference z
afterwards". -/
theorem merge_authors_last_name_collision_cx :
    (merge_authors 9 [c6x, c6y] c6db).author = [⟨⟨9, IdTag.canonical⟩, "Y"⟩]
    ∧ (merge_authors 9 [c6x, c6y] c6db).paper_author
        = [⟨c6paper, ⟨9, IdTag.canonical⟩, 0⟩, ⟨c6paper, c6y, 1⟩]
    ∧ ((merge_authors 9 [c6x, c6y] c6db).paper_author.any
        (fun r => r.author_id = c6y)) = true
    ∧ "Y" ≠ "X" := by
  refine ⟨by decide, by decide, by decide, by decide⟩

/-! ## Claim C9: canonical-map rows created by acquisition -/

theorem upsertBy_cons_eq {β : Type} (a : UID × β) (c : List (UID × β)) (h : UID) (v : β)
    (ha : a.1 = h) :
    upsertBy Prod.fst (h, v) (a :: c) = (h, v) :: c := by
  simp [upsertBy, ha]

theorem upsertBy_cons_ne {β : Type} (a : UID × β) (c : List (UID × β)) (h : UID) (v : β)
    (ha : ¬ a.1 = h) :
    upsertBy Prod.fst (h, v) (a :: c) = a :: upsertBy Prod.fst (h, v) c := by
  simp [upsertBy, ha]

theorem mem_keys_upsert_self {β : Type} (c : List (UID × β)) (h : UID) (v : β) :
    h ∈ (upsertBy Prod.fst (h, v) c).map Prod.fst := by
  induction c with
  | nil => simp [upsertBy]
  | cons a c ih =>
    by_cases ha : a.1 = h
    · rw [upsertBy_cons_eq a c h v ha, List.map_cons, List.mem_cons]
      exact Or.inl rfl
    · rw [upsertBy_cons_ne a c h v ha, List.map_cons, List.mem_cons]
      exact Or.inr ih

theorem mem_keys_upsert_of_mem {β : Type} (c : List (UID × β)) (h k : UID) (v : β)
    (hk : k ∈ c.map Prod.fst) :
    k ∈ (upsertBy Prod.fst (h, v) c).map Prod.fst := by
  induction c with
  | nil => simp at hk
  | cons a c ih =>
    rw [List.map_cons, List.mem_cons] at hk
    by_cases ha : a.1 = h
    · rw [upsertBy_cons_eq a c h v ha, List.map_cons, List.mem_cons]
      rcases hk with he | hm
      · exact Or.inl (he.trans ha)
      · exact Or.inr hm
    · rw [upsertBy_cons_ne a c h v ha, List.map_cons, List.mem_cons]
      rcases hk with he | hm
      · exact Or.inl he
      · exact Or.inr (ih hm)

theorem mem_keys_upsert_cases {β : Type} (c : List (UID × β)) (h k : UID) (v : β)
    (hk : k ∈ (upsertBy Prod.fst (h, v) c).map Prod.fst) :
    k = h ∨ k ∈ c.map Prod.fst := by
  induction c with
  | nil =>
    simp only [upsertBy, List.map_cons, List.map_nil, List.mem_singleton] at hk
    exact Or.inl hk
  | cons a c ih =>
    by_cases ha : a.1 = h
    · rw [upsertBy_cons_eq a c h v ha, List.map_cons, List.mem_cons] at hk
      rcases hk with he | hm
      · exact Or.inl he
      · exact Or.inr (by rw [List.map_cons, List.mem_cons]; exact Or.inr hm)
    · rw [upsertBy_cons_ne a c h v ha, List.map_cons, List.mem_cons] at hk
      rcases hk with he | hm
      · exact Or.inr (by rw [List.map_cons, List.mem_cons]; exact Or.inl he)
      · rcases ih hm with h1 | h2
        · exact Or.inl h1
        · exact Or.inr (by rw [List.map_cons, List.mem_cons]; exact Or.inr h2)

theorem csp_refl (d : CMap) (hs : List UID) (s : St) : CSpec d hs s s := by
  refine ⟨[], by simp, by simp, by simp, by simp, fun h a => a, fun h a => Or.inl a⟩

theorem csp_frame (d : CMap) (hs : List UID) (s s2 : St)
    (hc : s2.cache = s.cache) (hca : s2.db.canonical_id = s.db.canonical_id) :
    CSpec d hs s s2 := by
  refine ⟨[], by rw [hca]; simp, by simp, by simp, by simp, ?_, ?_⟩
  · intro h hh
    simpa [cacheKeys, hc] using hh
  · intro h hh
    exact Or.inl (by simpa [cacheKeys, hc] using hh)

theorem csp_weaken (d : CMap) (hs1 hs2 : List UID) (s s2 : St)
    (hsub : ∀ h ∈ hs1, h ∈ hs2) (hc : CSpec d hs1 s s2) : CSpec d hs2 s s2 := by
  obtain ⟨L, e1, p1, n1, f1, m1, b1⟩ := hc
  refine ⟨L, e1, p1, n1, ?_, m1, ?_⟩
  · intro h hh
    obtain ⟨q1, q2, q3, q4⟩ := f1 h hh
    exact ⟨q1, q2, q3, hsub h q4⟩
  · intro h hh
    rcases b1 h hh with h1 | h2
    · exact Or.inl h1
    · exact Or.inr (hsub h h2)

theorem csp_comp (d : CMap) (hs1 hs2 : List UID) (s s1 s2 : St)
    (h1 : CSpec d hs1 s s1) (h2 : CSpec d hs2 s1 s2) : CSpec d (hs1 ++ hs2) s s2 := by
  obtain ⟨L1, e1, p1, n1, f1, m1, b1⟩ := h1
  obtain ⟨L2, e2, p2, n2, f2, m2, b2⟩ := h2
  refine ⟨L1 ++ L2, ?_, ?_, ?_, ?_, ?_, ?_⟩
  · rw [e2, e1, List.append_assoc]
  · intro p hp
    rcases List.mem_append.mp hp with hm | hm
    · exact p1 p hm
    · exact p2 p hm
  · rw [List.map_append]
    refine List.Nodup.append n1 n2 ?_
    intro a ha1 ha2
    exact (f2 a ha2).2.1 ((f1 a ha1).2.2.1)
  · intro h hp
    rw [List.map_append] at hp
    rcases List.mem_append.mp hp with hm | hm
    · obtain ⟨q1, q2, q3, q4⟩ := f1 h hm
      exact ⟨q1, q2, m2 h q3, List.mem_append_left _ q4⟩
    · obtain ⟨q1, q2, q3, q4⟩ := f2 h hm
      refine ⟨q1, fun hin => q2 (m1 h hin), q3, List.mem_append_right _ q4⟩
  · intro h hh
    exact m2 h (m1 h hh)
  · intro h hh
    rcases b2 h hh with hin1 | hhs2
    · rcases b1 h hin1 with hin | hhs1
      · exact Or.inl hin
      · exact Or.inr (List.mem_append_left _ hhs1)
    · exact Or.inr (List.mem_append_right _ hhs2)

theorem wrapPost_canon (h : UID) (r : UID × St) (ht : h.tag = IdTag.transient) :
    (wrapPost h r).db.canonical_id = r.2.db.canonical_id ++ [(h, none)] := by
  simp [wrapPost, get_uuid_tag, ht]

/-- The wrapper of `acquire` satisfies the canonical-map evolution
contract whenever its body does and the entity's own hash id is not
among the body's sub-hashes. -/
theorem acquireGen_cspec (d : CMap) (h : UID) (ht : h.tag = IdTag.transient)
    (body : St → UID × St) (hs : List UID) (hfresh : h ∉ hs)
    (hbody : ∀ s, CSpec d hs s (body s).2) (s : St) :
    CSpec d (h :: hs) s ((acquireGen d h body s).2) := by
  cases hd : lookup2 d h with
  | some c =>
    rw [acquireGen_dict_hit d h body s c hd]
    exact csp_refl d (h :: hs) s
  | none =>
    cases hc : lookup2 s.cache h with
    | some v =>
      rw [acquireGen_cache_hit d h body s v hd ht hc]
      exact csp_refl d (h :: hs) s
    | none =>
      rw [acquireGen_run d h body s hd (Or.inr hc)]
      obtain ⟨L, e1, p1, n1, f1, m1, b1⟩ := hbody s
      have hwdb := wrapPost_canon h (body s) ht
      have hwc := wrapPost_cache h (body s)
      have hnotc : h ∉ cacheKeys s := (lookup2_none_iff s.cache h).mp hc
      refine ⟨L ++ [(h, none)], ?_, ?_, ?_, ?_, ?_, ?_⟩
      · rw [hwdb, e1, List.append_assoc]
      · intro p hp
        rcases List.mem_append.mp hp with hm | hm
        · exact p1 p hm
        · rw [List.mem_singleton.mp hm]
          exact ⟨ht, rfl⟩
      · rw [List.map_append]
        refine List.Nodup.append n1 (by simp) ?_
        intro a ha1 ha2
        have ha : a = h := by
          simpa using ha2
        rw [ha] at ha1
        exact hfresh ((f1 h ha1).2.2.2)
      · intro k hk
        rw [List.map_append] at hk
        rcases List.mem_append.mp hk with hm | hm
        · obtain ⟨q1, q2, q3, q4⟩ := f1 k hm
          refine ⟨q1, q2, ?_, List.mem_cons_of_mem h q4⟩
          show k ∈ (wrapPost h (body s)).cache.map Prod.fst
          rw [hwc]
          exact mem_keys_upsert_of_mem _ h k _ q3
        · have hkh : k = h := by simpa using hm
          rw [hkh]
          refine ⟨hd, hnotc, ?_, List.mem_cons_self h hs⟩
          show h ∈ (wrapPost h (body s)).cache.map Prod.fst
          rw [hwc]
          exact mem_keys_upsert_self _ h _
      · intro k hk
        show k ∈ (wrapPost h (body s)).cache.map Prod.fst
        rw [hwc]
        exact mem_keys_upsert_of_mem _ h k _ (m1 k hk)
      · intro k hk
        have hk2 : k ∈ (wrapPost h (body s)).cache.map Prod.fst := hk
        rw [hwc] at hk2
        rcases mem_keys_upsert_cases _ h k _ hk2 with he | hm
        · exact Or.inr (by simp [he])
        · rcases b1 k hm with hin | hhs
          · exact Or.inl hin
          · exact Or.inr (List.mem_cons_of_mem h hhs)

theorem csp_then_frame (d : CMap) (hs : List UID) (s s1 s2 : St)
    (h : CSpec d hs s s1)
    (hc : s2.cache = s1.cache) (hca : s2.db.canonical_id = s1.db.canonical_id) :
    CSpec d hs s s2 := by
  have h2 := csp_comp d hs [] s s1 s2 h (csp_frame d [] s1 s2 hc hca)
  simpa using h2

theorem venueLinksLoop_frame (vid : UID) (l : List Link) :
    ∀ s, (venueLinksLoop vid l s).cache = s.cache
      ∧ (venueLinksLoop vid l s).db.canonical_id = s.db.canonical_id := by
  induction l with
  | nil => exact fun s => ⟨rfl, rfl⟩
  | cons lk rest ih =>
    intro s
    exact ih _

theorem authorLinksLoop_frame (aid : UID) (l : List Link) :
    ∀ s, (authorLinksLoop aid l s).cache = s.cache
      ∧ (authorLinksLoop aid l s).db.canonical_id = s.db.canonical_id := by
  induction l with
  | nil => exact fun s => ⟨rfl, rfl⟩
  | cons lk rest ih =>
    intro s
    exact ih _

theorem authorAliasesLoop_frame (aid : UID) (l : List String) :
    ∀ s, (authorAliasesLoop aid l s).cache = s.cache
      ∧ (authorAliasesLoop aid l s).db.canonical_id = s.db.canonical_id := by
  induction l with
  | nil => exact fun s => ⟨rfl, rfl⟩
  | cons al rest ih =>
    intro s
    exact ih _

theorem paperLinksLoop_frame (pid : UID) (l : List Link) :
    ∀ s, (paperLinksLoop pid l s).cache = s.cache
      ∧ (paperLinksLoop pid l s).db.canonical_id = s.db.canonical_id := by
  induction l with
  | nil => exact fun s => ⟨rfl, rfl⟩
  | cons lk rest ih =>
    intro s
    exact ih _

theorem paperScrapersLoop_frame (pid : UID) (l : List String) :
    ∀ s, (paperScrapersLoop pid l s).cache = s.cache
      ∧ (paperScrapersLoop pid l s).db.canonical_id = s.db.canonical_id := by
  induction l with
  | nil => exact fun s => ⟨rfl, rfl⟩
  | cons sc rest ih =>
    intro s
    exact ih _

theorem acquireInstitution_cspec (d : CMap) (i : Institution) (s : St) :
    CSpec d [i.hashid] s (acquireInstitution d i s).2 := by
  unfold acquireInstitution
  exact acquireGen_cspec d i.hashid rfl _ [] (by simp)
    (fun s2 => csp_frame d [] s2 _ rfl rfl) s

theorem acquireTopic_cspec (d : CMap) (t : Topic) (s : St) :
    CSpec d [t.hashid] s (acquireTopic d t s).2 := by
  unfold acquireTopic
  exact acquireGen_cspec d t.hashid rfl _ [] (by simp)
    (fun s2 => csp_frame d [] s2 _ rfl rfl) s

theorem acquireVenue_cspec (d : CMap) (v : Venue) (s : St) :
    CSpec d [v.hashid] s (acquireVenue d v s).2 := by
  unfold acquireVenue
  refine acquireGen_cspec d v.hashid rfl _ [] (by simp) ?_ s
  intro s2
  refine csp_frame d [] s2 _ ?_ ?_
  · rw [(venueLinksLoop_frame v.hashid v.links _).1]
  · rw [(venueLinksLoop_frame v.hashid v.links _).2]

theorem acquireRelease_cspec (d : CMap) (r : Release) (hsep : SepRelease r) (s : St) :
    CSpec d (r.hashid :: [r.venue.hashid]) s (acquireRelease d r s).2 := by
  unfold acquireRelease
  refine acquireGen_cspec d r.hashid rfl _ [r.venue.hashid] (by simpa using hsep) ?_ s
  intro s2
  exact csp_then_frame d [r.venue.hashid] s2 (acquireVenue d r.venue s2).2 _
    (acquireVenue_cspec d r.venue s2) rfl rfl

theorem roleStep_cspec (d : CMap) (aid : UID) (ro : Role) (s : St) :
    CSpec d [ro.institution.hashid] s (roleStep d aid ro s) := by
  exact csp_then_frame d [ro.institution.hashid] s (acquireInstitution d ro.institution s).2 _
    (acquireInstitution_cspec d ro.institution s) rfl rfl

theorem authorRolesLoop_cspec (d : CMap) (aid : UID) (roles : List Role) :
    ∀ s, CSpec d (roles.map (fun ro => ro.institution.hashid)) s
      (authorRolesLoop d aid roles s) := by
  induction roles with
  | nil => exact fun s => csp_refl d [] s
  | cons ro rest ih =>
    intro s
    show CSpec d _ s (authorRolesLoop d aid rest (roleStep d aid ro s))
    exact csp_comp d [ro.institution.hashid] (rest.map (fun ro => ro.institution.hashid))
      s (roleStep d aid ro s) _ (roleStep_cspec d aid ro s) (ih _)

theorem acquireAuthor_cspec (d : CMap) (a : Author) (hsep : SepAuthor a) (s : St) :
    CSpec d (a.hashid :: rolesHashes a) s (acquireAuthor d a s).2 := by
  unfold acquireAuthor
  refine acquireGen_cspec d a.hashid rfl _ (rolesHashes a) hsep ?_ s
  intro s2
  have hframe : CSpec d [] s2
      (authorAliasesLoop a.hashid a.aliases
        (authorLinksLoop a.hashid a.links
          { s2 with db := { s2.db with
              author := upsertBy AuthorRow.author_id ⟨a.hashid, a.name⟩ s2.db.author } })) := by
    refine csp_frame d [] s2 _ ?_ ?_
    · rw [(authorAliasesLoop_frame a.hashid a.aliases _).1,
          (authorLinksLoop_frame a.hashid a.links _).1]
    · rw [(authorAliasesLoop_frame a.hashid a.aliases _).2,
          (authorLinksLoop_frame a.hashid a.links _).2]
  show CSpec d (rolesHashes a) s2
    (authorRolesLoop d a.hashid a.roles
      (authorAliasesLoop a.hashid a.aliases
        (authorLinksLoop a.hashid a.links
          { s2 with db := { s2.db with
              author := upsertBy AuthorRow.author_id ⟨a.hashid, a.name⟩ s2.db.author } })))
  exact csp_comp d [] (a.roles.map (fun ro => ro.institution.hashid)) s2 _ _
    hframe (authorRolesLoop_cspec d a.hashid a.roles _)

theorem affStep_cspec (d : CMap) (pid aid : UID) (aff : Institution) (s : St) :
    CSpec d [Institution.hashid aff] s (affStep d pid aid aff s) := by
  exact csp_then_frame d [Institution.hashid aff] s (acquireInstitution d aff s).2 _
    (acquireInstitution_cspec d aff s) rfl rfl

theorem paperAffiliationsLoop_cspec (d : CMap) (pid aid : UID) (affs : List Institution) :
    ∀ s, CSpec d (affs.map Institution.hashid) s
      (paperAffiliationsLoop d pid aid affs s) := by
  induction affs with
  | nil => exact fun s => csp_refl d [] s
  | cons aff rest ih =>
    intro s
    show CSpec d _ s (paperAffiliationsLoop d pid aid rest (affStep d pid aid aff s))
    exact csp_comp d [Institution.hashid aff] (rest.map Institution.hashid)
      s (affStep d pid aid aff s) _ (affStep_cspec d pid aid aff s) (ih _)

theorem paStep_cspec (d : CMap) (pid : UID) (i : Nat) (pa : PaperAuthorE)
    (hsep : SepAuthor pa.author) (s : St) :
    CSpec d ((pa.author.hashid :: rolesHashes pa.author) ++ pa.affiliations.map Institution.hashid)
      s (paStep d pid i pa s) := by
  have h1 : CSpec d (pa.author.hashid :: rolesHashes pa.author) s
      { (acquireAuthor d pa.author s).2 with db := { (acquireAuthor d pa.author s).2.db with
          paper_author := upsertBy (fun r : PaperAuthorRow => (r.paper_id, r.author_id))
            ⟨pid, (acquireAuthor d pa.author s).1, i⟩
            (acquireAuthor d pa.author s).2.db.paper_author } } :=
    csp_then_frame d _ s (acquireAuthor d pa.author s).2 _
      (acquireAuthor_cspec d pa.author hsep s) rfl rfl
  show CSpec d _ s
    (paperAffiliationsLoop d pid (acquireAuthor d pa.author s).1 pa.affiliations
      { (acquireAuthor d pa.author s).2 with db := { (acquireAuthor d pa.author s).2.db with
          paper_author := upsertBy (fun r : PaperAuthorRow => (r.paper_id, r.author_id))
            ⟨pid, (acquireAuthor d pa.author s).1, i⟩
            (acquireAuthor d pa.author s).2.db.paper_author } })
  exact csp_comp d _ _ s _ _ h1
    (paperAffiliationsLoop_cspec d pid (acquireAuthor d pa.author s).1 pa.affiliations _)

theorem paperAuthorsLoop_cspec (d : CMap) (pid : UID) (l : List PaperAuthorE) :
    ∀ (i : Nat) (s : St), (∀ pa ∈ l, SepAuthor pa.author) →
      CSpec d ((l.map (fun pa =>
          (pa.author.hashid :: rolesHashes pa.author)
            ++ pa.affiliations.map Institution.hashid)).flatten) s
        (paperAuthorsLoop d pid i l s) := by
  induction l with
  | nil => exact fun i s _ => csp_refl d [] s
  | cons pa rest ih =>
    intro i s hsep
    show CSpec d _ s (paperAuthorsLoop d pid (i + 1) rest (paStep d pid i pa s))
    exact csp_comp d
      ((pa.author.hashid :: rolesHashes pa.author) ++ pa.affiliations.map Institution.hashid)
      ((rest.map (fun pa =>
          (pa.author.hashid :: rolesHashes pa.author)
            ++ pa.affiliations.map Institution.hashid)).flatten)
      s (paStep d pid i pa s) _
      (paStep_cspec d pid i pa (hsep pa (List.mem_cons_self pa rest)) s)
      (ih (i + 1) _ (fun q hq => hsep q (List.mem_cons_of_mem pa hq)))

theorem relStep_cspec (d : CMap) (pid : UID) (rl : Release) (hsep : SepRelease rl) (s : St) :
    CSpec d [rl.hashid, rl.venue.hashid] s (relStep d pid rl s) := by
  exact csp_then_frame d _ s (acquireRelease d rl s).2 _
    (acquireRelease_cspec d rl hsep s) rfl rfl

theorem paperReleasesLoop_cspec (d : CMap) (pid : UID) (l : List Release) :
    ∀ s, (∀ rl ∈ l, SepRelease rl) →
      CSpec d ((l.map (fun r => [r.hashid, r.venue.hashid])).flatten) s
        (paperReleasesLoop d pid l s) := by
  induction l with
  | nil => exact fun s _ => csp_refl d [] s
  | cons rl rest ih =>
    intro s hsep
    show CSpec d _ s (paperReleasesLoop d pid rest (relStep d pid rl s))
    exact csp_comp d [rl.hashid, rl.venue.hashid]
      ((rest.map (fun r => [r.hashid, r.venue.hashid])).flatten)
      s (relStep d pid rl s) _
      (relStep_cspec d pid rl (hsep rl (List.mem_cons_self rl rest)) s)
      (ih _ (fun q hq => hsep q (List.mem_cons_of_mem rl hq)))

theorem topStep_cspec (d : CMap) (pid : UID) (tp : Topic) (s : St) :
    CSpec d [tp.hashid] s (topStep d pid tp s) := by
  exact csp_then_frame d [tp.hashid] s (acquireTopic d tp s).2 _
    (acquireTopic_cspec d tp s) rfl rfl

theorem paperTopicsLoop_cspec (d : CMap) (pid : UID) (l : List Topic) :
    ∀ s, CSpec d (l.map Topic.hashid) s (paperTopicsLoop d pid l s) := by
  induction l with
  | nil => exact fun s => csp_refl d [] s
  | cons tp rest ih =>
    intro s
    show CSpec d _ s (paperTopicsLoop d pid rest (topStep d pid tp s))
    exact csp_comp d [tp.hashid] (rest.map Topic.hashid)
      s (topStep d pid tp s) _ (topStep_cspec d pid tp s) (ih _)

theorem acquirePaper_cspec (d : CMap) (p : Paper) (hsep : SepPaper p) (s : St) :
    CSpec d (p.hashid :: paperSubHashes p) s (acquirePaper d p s).2 := by
  obtain ⟨hfresh, hsepA, hsepR⟩ := hsep
  unfold acquirePaper
  refine acquireGen_cspec d p.hashid rfl _ (paperSubHashes p) hfresh ?_ s
  intro s2
  have hA : CSpec d ((p.authors.map (fun pa =>
        (pa.author.hashid :: rolesHashes pa.author)
          ++ pa.affiliations.map Institution.hashid)).flatten) s2
      (paperAuthorsLoop d p.hashid 0 p.authors
        { s2 with db := { s2.db with
            paper := upsertBy PaperRow.paper_id
              ⟨p.hashid, p.title, p.abstract, p.citation_count⟩ s2.db.paper } }) := by
    have h0 : CSpec d [] s2
        { s2 with db := { s2.db with
            paper := upsertBy PaperRow.paper_id
              ⟨p.hashid, p.title, p.abstract, p.citation_count⟩ s2.db.paper } } :=
      csp_frame d [] s2 _ rfl rfl
    exact csp_comp d [] _ s2 _ _ h0 (paperAuthorsLoop_cspec d p.hashid p.authors 0 _ hsepA)
  have hAB := csp_comp d _ _ s2 _ _ hA
    (paperReleasesLoop_cspec d p.hashid p.releases _ hsepR)
  have hABC := csp_comp d _ _ s2 _ _ hAB (paperTopicsLoop_cspec d p.hashid p.topics _)
  show CSpec d (paperSubHashes p) s2
    (paperScrapersLoop p.hashid p.scrapers
      (paperLinksLoop p.hashid p.links
        (paperTopicsLoop d p.hashid p.topics
          (paperReleasesLoop d p.hashid p.releases
            (paperAuthorsLoop d p.hashid 0 p.authors
              { s2 with db := { s2.db with
                  paper := upsertBy PaperRow.paper_id
                    ⟨p.hashid, p.title, p.abstract, p.citation_count⟩ s2.db.paper } })))))
  refine csp_weaken d _ _ s2 _ ?_ (csp_then_frame d _ s2 _ _ hABC ?_ ?_)
  · intro h hh
    simp only [List.mem_append] at hh
    simp only [paperSubHashes, List.mem_append]
    tauto
  · rw [(paperScrapersLoop_frame p.hashid p.scrapers _).1,
        (paperLinksLoop_frame p.hashid p.links _).1]
  · rw [(paperScrapersLoop_frame p.hashid p.scrapers _).2,
        (paperLinksLoop_frame p.hashid p.links _).2]

theorem acquire_run_last (d : CMap) (e : Entity) (s : St)
    (hd : lookup2 d e.hashid = none) (hc : lookup2 s.cache e.hashid = none) :
    (e.hashid, (none : Option UID)) ∈ ((acquire d e s).2).db.canonical_id := by
  cases e <;>
    (simp only [Entity.hashid] at hd hc ⊢
     simp only [acquire, acquirePaper, acquireAuthor, acquireInstitution, acquireRelease,
       acquireTopic, acquireVenue]
     rw [acquireGen_run d _ _ s hd (Or.inr hc), wrapPost_canon _ _ rfl]
     exact List.mem_append_right _ (by simp))

/-- Claim C9: every canonical-map row created by an acquisition has a
transient-tagged identifier as key and a null canonical value; the
acquisition appends such rows for identifiers not already in the
canonical-map snapshot, the cache, or the stored table — so at most one
row per identifier, and exactly one row for the entity's own identifier
the first time it is acquired (last conjunct); no row is ever created
for a canonical-tagged identifier (every new key is transient); and the
store/session consistency `GoodCanon` is preserved by every acquisition.
`SepE` asks that distinct entities inside `e` have distinct hash ids —
automatic for a content hash — and `GoodCanon` holds of a freshly opened
`Database` and is itself preserved. -/
theorem acquire_canonical_map_rows (d : CMap) (e : Entity) (s : St)
    (hsep : SepE e) (hg : GoodCanon d s) :
    ∃ L, ((acquire d e s).2).db.canonical_id = s.db.canonical_id ++ L
      ∧ (∀ q ∈ L, q.1.tag = IdTag.transient ∧ q.2 = (none : Option UID))
      ∧ (L.map Prod.fst).Nodup
      ∧ (∀ h ∈ L.map Prod.fst, h ∉ s.db.canonical_id.map Prod.fst)
      ∧ GoodCanon d ((acquire d e s).2)
      ∧ (lookup2 d e.hashid = none → e.hashid ∉ cacheKeys s →
           (e.hashid, (none : Option UID)) ∈ L) := by
  have hcs : ∃ hs, CSpec d hs s ((acquire d e s).2) := by
    cases e with
    | paper p => exact ⟨_, acquirePaper_cspec d p hsep s⟩
    | author a => exact ⟨_, acquireAuthor_cspec d a hsep s⟩
    | institution i => exact ⟨_, acquireInstitution_cspec d i s⟩
    | release r => exact ⟨_, acquireRelease_cspec d r hsep s⟩
    | topic t => exact ⟨_, acquireTopic_cspec d t s⟩
    | venue v => exact ⟨_, acquireVenue_cspec d v s⟩
  obtain ⟨hs, L, e1, p1, n1, f1, m1, b1⟩ := hcs
  refine ⟨L, e1, p1, n1, ?_, ?_, ?_⟩
  · intro h hh hin
    obtain ⟨q1, q2, _, _⟩ := f1 h hh
    rcases hg h hin with hq | hq
    · exact hq q1
    · exact q2 hq
  · intro k hkin
    rw [e1, List.map_append] at hkin
    rcases List.mem_append.mp hkin with hold | hnew
    · rcases hg k hold with hq | hq
      · exact Or.inl hq
      · exact Or.inr (m1 k hq)
    · exact Or.inr ((f1 k hnew).2.2.1)
  · intro hd hnc
    have hmem := acquire_run_last d e s hd ((lookup2_none_iff s.cache e.hashid).mpr hnc)
    rw [e1] at hmem
    rcases List.mem_append.mp hmem with hold | hL
    · exfalso
      have hk : e.hashid ∈ s.db.canonical_id.map Prod.fst :=
        List.mem_map_of_mem Prod.fst hold
      rcases hg e.hashid hk with hq | hq
      · exact hq hd
      · exact hnc hq
    · exact hL

theorem acquire_canonical_map_rows_witness :
    SepE (Entity.author sampleA) ∧ GoodCanon [] emptySt ∧
    (∃ L, ((acquire [] (Entity.author sampleA) emptySt).2).db.canonical_id
        = emptySt.db.canonical_id ++ L
      ∧ (∀ q ∈ L, q.1.tag = IdTag.transient ∧ q.2 = (none : Option UID))
      ∧ (L.map Prod.fst).Nodup
      ∧ (∀ h ∈ L.map Prod.fst, h ∉ emptySt.db.canonical_id.map Prod.fst)
      ∧ GoodCanon [] ((acquire [] (Entity.author sampleA) emptySt).2)
      ∧ (lookup2 ([] : CMap) (Entity.author sampleA).hashid = none →
           (Entity.author sampleA).hashid ∉ cacheKeys emptySt →
           ((Entity.author sampleA).hashid, (none : Option UID)) ∈ L)) :=
  ⟨by simp [SepE, SepAuthor, rolesHashes, sampleA, mkAuthor],
   by simp [GoodCanon, emptySt, DBState.empty],
   acquire_canonical_map_rows [] (Entity.author sampleA) emptySt
     (by simp [SepE, SepAuthor, rolesHashes, sampleA, mkAuthor])
     (by simp [GoodCanon, emptySt, DBState.empty])⟩
